import Mathlib

/-
Verification of the live-query diff engine of mysql-live-select.

Source files embedded here:
  * src/src/common.es6      : applyDiff, getResultSetDiff, getDiffFromSupplied,
                              flattenNotifications
  * src/lib/LiveMysql.js    : select, _removeSelect (schema interest-set and
                              query-cache registry bookkeeping)

The differ (src/collectionDiff, required by common.es6) and the modules
LiveMysqlSelect / LiveMysqlKeySelector / QueryCache are not present in the
sources; where needed they are modelled from the specification and marked as
such in their doc comments.

JavaScript arrays with holes are modelled as lists of optional cells; object
mutation of row objects (applyDiff mutates the _index field of moved rows in
place) is modelled with an explicit store of the input rows, so that both the
returned array and the post-call state of the input rows are values of the
embedding.
-/

set_option maxHeartbeats 1000000

namespace MysqlLiveSelect

/-- Row of a live result set: `hash` models the synthetic `_hash` field,
`payload` stands for all remaining fields (their canonical JSON), and
`index` models the synthetic 1-based `_index` field. -/
structure Row where
  hash : String
  payload : String
  index : Nat
deriving DecidableEq, Inhabited

/-- Entry of the `removed` list of a diff (its `_index` field). -/
structure Removed where
  ridx : Nat
deriving DecidableEq

/-- Entry of the `moved` list of a diff. -/
structure Moved where
  old_index : Nat
  new_index : Nat
deriving DecidableEq

/-- Entry of the `copied` list of a diff. -/
structure Copied where
  orig_index : Nat
  new_index : Nat
deriving DecidableEq

/-- Diff object (differ output, `applyDiff` input); in JavaScript each of the
four lists may be `null`, modelled by `none`. -/
structure Diff where
  added : Option (List Row)
  removed : Option (List Removed)
  moved : Option (List Moved)
  copied : Option (List Copied)
deriving DecidableEq

/-- First index of `h` in `l`: JavaScript `Array.prototype.indexOf`, with
`none` standing for `-1`. -/
def firstIdx (l : List String) (h : String) : Option Nat :=
  match l with
  | [] => none
  | x :: t => if x = h then some 0 else (firstIdx t h).map (· + 1)

/-- Write `x` at position `i` of a JavaScript array modelled as a list of
optional cells; positions past the current end are created as holes
(JavaScript assignment beyond `length` extends the array). -/
def setSlot {α : Type} : List (Option α) → Nat → Option α → List (Option α)
  | [], 0, x => [x]
  | [], i + 1, x => none :: setSlot [] i x
  | _ :: t, 0, x => x :: t
  | c :: t, i + 1, x => c :: setSlot t i x

/-- Live value of an array at position `i`: a hole and an out-of-range read
both give `none` (JavaScript `undefined`). -/
def wget {α : Type} (l : List (Option α)) (i : Nat) : Option α :=
  (l[i]?).join

/-- Sequence of array writes `(position, value)`, applied left to right. -/
def applyWrites {α : Type} (init : List (Option α)) (ws : List (Nat × Option α)) :
    List (Option α) :=
  ws.foldl (fun a w => setSlot a w.1 w.2) init

/-- Cell of the working array `newResults` in applyDiff: `Sum.inl i` is a
reference to the i-th row object of the input `data` array (the moved phase
stores such aliases, whose observable value is read from the final state of
the row store), `Sum.inr r` is a fresh object (a clone or an added row). -/
abbrev Cell := Sum Nat Row

/-- Read a cell through the final state `s` of the input row objects. -/
def deref (s : List Row) : Cell → Row
  | Sum.inl i => s.getD i default
  | Sum.inr r => r

/-- Phase 1 of applyDiff (common.es6 lines 332-333): null out the removed
positions. An `_index` of 0 targets JavaScript index -1, which is a plain
property assignment, invisible to later element reads. -/
def phNullRemoved (nr : List (Option Cell)) (rs : List Removed) : List (Option Cell) :=
  rs.foldl (fun a r => if r.ridx = 0 then a else setSlot a (r.ridx - 1) none) nr

/-- Phase 2 of applyDiff (lines 336-338): null out the moved source slots
before any write phase runs. -/
def phNullMoved (nr : List (Option Cell)) (ms : List Moved) : List (Option Cell) :=
  ms.foldl (fun a m => if m.old_index = 0 then a else setSlot a (m.old_index - 1) none) nr

/-- Phase 3 of applyDiff (lines 340-344): clone the original row at
`orig_index - 1`, set its `_index` to `new_index`, write at `new_index - 1`.
Reading a nonexistent source row makes the JavaScript code throw when it
assigns `_index` on `undefined`, modelled by `none`. -/
def phCopied (data : List Row) (nr : List (Option Cell)) (cs : List Copied) :
    Option (List (Option Cell)) :=
  cs.foldlM (fun a c =>
    if c.orig_index = 0 then none
    else
      match data[c.orig_index - 1]? with
      | none => none
      | some r =>
        if c.new_index = 0 then some a
        else some (setSlot a (c.new_index - 1)
          (some (Sum.inr { r with index := c.new_index })))) nr

/-- Phase 4 of applyDiff (lines 346-350): take the row object at
`old_index - 1` of the input array, mutate its `_index` field to `new_index`
in place (first component of the state), and write a reference to it at
`new_index - 1` of the working array. -/
def phMoved (st : List Row × List (Option Cell)) (ms : List Moved) :
    Option (List Row × List (Option Cell)) :=
  ms.foldlM (fun sa m =>
    if m.old_index = 0 then none
    else
      match sa.1[m.old_index - 1]? with
      | none => none
      | some r =>
        let s2 := sa.1.set (m.old_index - 1) { r with index := m.new_index }
        if m.new_index = 0 then some (s2, sa.2)
        else some (s2, setSlot sa.2 (m.new_index - 1)
          (some (Sum.inl (m.old_index - 1))))) st

/-- Phase 5 of applyDiff (lines 352-353): write each added row at its
`_index - 1`. -/
def phAdded (nr : List (Option Cell)) (adds : List Row) : List (Option Cell) :=
  adds.foldl (fun a r => if r.index = 0 then a else setSlot a (r.index - 1)
    (some (Sum.inr r))) nr

/-- Embedding of applyDiff (common.es6 lines 329-356). Null diff lists are
skipped by the `!== null` guards, modelled by `Option.getD []`. The result is
the compacted new array together with the post-call state of the rows of the
input array (the moved phase mutates their `_index` fields in place); `none`
models a thrown TypeError. -/
def applyDiff (data : List Row) (diff : Diff) : Option (List Row × List Row) :=
  let nr0 : List (Option Cell) := (List.range data.length).map (fun i => some (Sum.inl i))
  let nr1 := phNullRemoved nr0 (diff.removed.getD [])
  let nr2 := phNullMoved nr1 (diff.moved.getD [])
  match phCopied data nr2 (diff.copied.getD []) with
  | none => none
  | some nr3 =>
    match phMoved (data, nr3) (diff.moved.getD []) with
    | none => none
    | some sf =>
      let nr5 := phAdded sf.2 (diff.added.getD [])
      some ((nr5.filterMap id).map (deref sf.1), sf.1)

/-- Modelled from the spec: the applyDiff recipe of specification section 4.2,
with a value-semantics working copy in which the copied and moved phases read
their source rows from the unmodified input `oldData`. Used as the comparison
point for the refinement claim about the source applyDiff. -/
def applyDiffSpec (data : List Row) (diff : Diff) : Option (List Row) :=
  let w0 : List (Option Row) := data.map some
  let w1 := (diff.removed.getD []).foldl
    (fun a r => if r.ridx = 0 then a else setSlot a (r.ridx - 1) none) w0
  let w2 := (diff.moved.getD []).foldl
    (fun a m => if m.old_index = 0 then a else setSlot a (m.old_index - 1) none) w1
  match (diff.copied.getD []).foldlM (fun a c =>
      if c.orig_index = 0 then none
      else
        match data[c.orig_index - 1]? with
        | none => none
        | some r =>
          if c.new_index = 0 then some a
          else some (setSlot a (c.new_index - 1)
            (some { r with index := c.new_index }))) w2 with
  | none => none
  | some w3 =>
    match (diff.moved.getD []).foldlM (fun a m =>
        if m.old_index = 0 then none
        else
          match data[m.old_index - 1]? with
          | none => none
          | some r =>
            if m.new_index = 0 then some a
            else some (setSlot a (m.new_index - 1)
              (some { r with index := m.new_index }))) w3 with
    | none => none
    | some w4 =>
      let w5 := (diff.added.getD []).foldl
        (fun a r => if r.index = 0 then a else setSlot a (r.index - 1) (some r)) w4
      some (w5.filterMap id)

/-- Added list of the modelled differ: the new rows whose hash is absent
from the old hashes, ascending by new position. -/
def addedList (oldHashes : List String) (newRows : List Row) : List Row :=
  (List.range newRows.length).filterMap (fun j =>
    (newRows[j]?).bind (fun r =>
      if firstIdx oldHashes r.hash = none then some r else none))

/-- Removed list of the modelled differ: the old positions whose hash is
absent from the new rows, ascending by old position. -/
def removedList (oldHashes : List String) (newRows : List Row) : List Removed :=
  (List.range oldHashes.length).filterMap (fun i =>
    (oldHashes[i]?).bind (fun h =>
      if firstIdx (newRows.map Row.hash) h = none then some ⟨i + 1⟩ else none))

/-- Moved list of the modelled differ: the first new occurrence of a hash
also present in the old hashes is matched to the first old occurrence, and
moved when the positions differ; ascending by new position. -/
def movedList (oldHashes : List String) (newRows : List Row) : List Moved :=
  (List.range newRows.length).filterMap (fun j =>
    ((newRows.map Row.hash)[j]?).bind (fun h =>
      (firstIdx oldHashes h).bind (fun i =>
        if firstIdx (newRows.map Row.hash) h = some j then
          (if i = j then none else some ⟨i + 1, j + 1⟩)
        else none)))

/-- Copied list of the modelled differ: every further new occurrence of a
hash present in the old hashes is a copy of the first original occurrence;
ascending by new position. -/
def copiedList (oldHashes : List String) (newRows : List Row) : List Copied :=
  (List.range newRows.length).filterMap (fun j =>
    ((newRows.map Row.hash)[j]?).bind (fun h =>
      (firstIdx oldHashes h).bind (fun i =>
        if firstIdx (newRows.map Row.hash) h = some j then none
        else some ⟨i + 1, j + 1⟩)))

/-- Modelled from the spec: the differ (src/collectionDiff, required by
common.es6 but not present in the sources), following specification
section 4.1. Each list ascends by its governing index, and the result is
no-change (`none`) exactly when all four lists are empty. -/
def collectionDiff (oldHashes : List String) (newRows : List Row) : Option Diff :=
  if addedList oldHashes newRows = [] ∧ removedList oldHashes newRows = [] ∧
     movedList oldHashes newRows = [] ∧ copiedList oldHashes newRows = [] then none
  else some ⟨some (addedList oldHashes newRows), some (removedList oldHashes newRows),
    some (movedList oldHashes newRows), some (copiedList oldHashes newRows)⟩

/-- Embedding of getResultSetDiff (common.es6 lines 289-321) from the point
the re-query has returned: `freshRows` stands for `result.rows`, the rows of
the executed query carrying the database-computed `_hash` and 1-based
`_index` (ROW_NUMBER). A `none` result models the `null` return (no change). -/
def getResultSetDiff (currentData : List Row) (freshRows : List Row) :
    Option (Diff × List Row) :=
  match collectionDiff (currentData.map Row.hash) freshRows with
  | none => none
  | some d => (applyDiff currentData d).map (fun out => (d, out.1))

/-- Composition named by the roundtrip claim: compute the diff of the old
data against the new rows and apply it back onto the old data; a no-change
diff leaves the old data in place. -/
def differThenApply (old new : List Row) : Option (List Row) :=
  match collectionDiff (old.map Row.hash) new with
  | none => some old
  | some d => (applyDiff old d).map (fun out => out.1)

/-- Initial working array of applyDiff: `data.slice()`, one reference cell
per input row. -/
def initCells (data : List Row) : List (Option Cell) :=
  (List.range data.length).map (fun i => some (Sum.inl i))

/-- Write performed by one removed entry (skipping the no-op at index -1). -/
def removedWrite (α : Type) (r : Removed) : Option (Nat × Option α) :=
  if r.ridx = 0 then none else some (r.ridx - 1, none)

/-- Nulling write performed by one moved entry. -/
def movedNullWrite (α : Type) (m : Moved) : Option (Nat × Option α) :=
  if m.old_index = 0 then none else some (m.old_index - 1, none)

/-- Write performed by one copied entry in the source applyDiff: a fresh
clone of the original row with the new index. -/
def copiedWrite (data : List Row) (c : Copied) : Option (Nat × Option Cell) :=
  match data[c.orig_index - 1]? with
  | none => none
  | some r =>
    if c.new_index = 0 then none
    else some (c.new_index - 1, some (Sum.inr { r with index := c.new_index }))

/-- Write performed by one copied entry in the spec-order applyDiff. -/
def copiedWriteSpec (data : List Row) (c : Copied) : Option (Nat × Option Row) :=
  match data[c.orig_index - 1]? with
  | none => none
  | some r =>
    if c.new_index = 0 then none
    else some (c.new_index - 1, some { r with index := c.new_index })

/-- Write performed by one moved entry in the source applyDiff: a reference
to the mutated row object. -/
def movedWrite (m : Moved) : Option (Nat × Option Cell) :=
  if m.new_index = 0 then none
  else some (m.new_index - 1, some (Sum.inl (m.old_index - 1)))

/-- Write performed by one moved entry in the spec-order applyDiff: the
original row value with the new index. -/
def movedWriteSpec (data : List Row) (m : Moved) : Option (Nat × Option Row) :=
  match data[m.old_index - 1]? with
  | none => none
  | some r =>
    if m.new_index = 0 then none
    else some (m.new_index - 1, some { r with index := m.new_index })

/-- Write performed by one added entry in the source applyDiff. -/
def addedWrite (r : Row) : Option (Nat × Option Cell) :=
  if r.index = 0 then none else some (r.index - 1, some (Sum.inr r))

/-- Write performed by one added entry in the spec-order applyDiff. -/
def addedWriteSpec (r : Row) : Option (Nat × Option Row) :=
  if r.index = 0 then none else some (r.index - 1, some r)

/-- In-place `_index` mutations performed by the moved phase on the rows of
the input array, folded left to right. -/
def mvStore (s : List Row) (ms : List Moved) : List Row :=
  ms.foldl (fun s m =>
    match s[m.old_index - 1]? with
    | none => s
    | some r => s.set (m.old_index - 1) { r with index := m.new_index }) s

/-- Final working array of applyDiff on the diff that the modelled differ
produces for `old` against `new`. -/
def rtFinal (old new : List Row) : List (Option Cell) :=
  applyWrites
    (applyWrites
      (applyWrites
        (applyWrites
          (applyWrites (initCells old)
            ((removedList (old.map Row.hash) new).filterMap (removedWrite Cell)))
          ((movedList (old.map Row.hash) new).filterMap (movedNullWrite Cell)))
        ((copiedList (old.map Row.hash) new).filterMap (copiedWrite old)))
      ((movedList (old.map Row.hash) new).filterMap movedWrite))
    ((addedList (old.map Row.hash) new).filterMap addedWrite)

/-- Final store of the input rows of applyDiff on that diff. -/
def rtStore (old new : List Row) : List Row :=
  mvStore old (movedList (old.map Row.hash) new)

/-- All writes of the source applyDiff on an arbitrary diff, in phase
order. -/
def srcWrites (data : List Row) (diff : Diff) : List (Nat × Option Cell) :=
  (diff.removed.getD []).filterMap (removedWrite Cell) ++
  (diff.moved.getD []).filterMap (movedNullWrite Cell) ++
  (diff.copied.getD []).filterMap (copiedWrite data) ++
  (diff.moved.getD []).filterMap movedWrite ++
  (diff.added.getD []).filterMap addedWrite

/-- All writes of the spec-order applyDiff on an arbitrary diff, in phase
order. -/
def specWrites (data : List Row) (diff : Diff) : List (Nat × Option Row) :=
  (diff.removed.getD []).filterMap (removedWrite Row) ++
  (diff.moved.getD []).filterMap (movedNullWrite Row) ++
  (diff.copied.getD []).filterMap (copiedWriteSpec data) ++
  (diff.moved.getD []).filterMap (movedWriteSpec data) ++
  (diff.added.getD []).filterMap addedWriteSpec

/-- Matched candidate row inside getDiffFromSupplied: its `_op` and `_key`
tags. The row content itself is consumed only through the normalization
pipeline of lines 198-223 (lodash clone, synthetic-field removal, column
projection, JSON serialization and md5), which uses the external md5 and
lodash libraries; that pipeline enters the embedding as the parameters
`cleanHash` and `payloadOf` of `getDiffFromSupplied`. -/
structure MRow where
  op : String
  key : String
deriving DecidableEq

/-- Parsed-query data consumed by getDiffFromSupplied after the loop:
whether an ORDER BY is present and the numeric LIMIT value if present. -/
structure Parsed where
  order : Bool
  limit : Option Nat
deriving DecidableEq

/-- Result of getDiffFromSupplied: `noChange` models the `null` returns,
`fullRequery` the fallback that re-queries through getResultSetDiff, and
`changed` the `{ diff, data }` return. -/
inductive SuppliedResult
  | noChange
  | fullRequery
  | changed (d : Diff) (data : List Row)
deriving DecidableEq

/-- Renumbering loop of common.es6 lines 270-272: position `i` (0-based)
receives `_index = i + 1`; `k` is the next index value to assign. -/
def renumberFrom : Nat → List Row → List Row
  | _, [] => []
  | k, r :: t => { r with index := k } :: renumberFrom (k + 1) t

/-- One iteration of the matched-row loop of getDiffFromSupplied (common.es6
lines 196-242): a matching DELETE or UPDATE-old clears the slot of the
matched hash and raises the hasDelete flag; an INSERT or UPDATE-new appends
the normalized row. -/
def suppliedStep (cleanHash : MRow → String) (payloadOf : MRow → String)
    (oldHashes : List String) (st : List (Option Row) × Bool) (m : MRow) :
    List (Option Row) × Bool :=
  let h := cleanHash m
  let st1 :=
    match firstIdx oldHashes h with
    | some ci =>
      if m.op = "DELETE" ∨ (m.op = "UPDATE" ∧ m.key = "old_data") then
        (st.1.set ci none, true)
      else st
    | none => st
  if m.op = "INSERT" ∨ (m.op = "UPDATE" ∧ m.key = "new_data") then
    (st1.1 ++ [some ⟨h, payloadOf m, 0⟩], st1.2)
  else st1

/-- Embedding of getDiffFromSupplied (common.es6 lines 183-279) from the
point the row matcher has produced `matched` (the matcher module
matchRowsToParsedQuery is not part of the sources; its output is taken as
input here). `cleanHash m` and `payloadOf m` stand for the `_hash` and the
remaining fields of the normalized row built in lines 198-223; `sortStep`
stands for the external lodash `sortByOrder` applied with the parsed
orderings (line 262). -/
def getDiffFromSupplied (cleanHash : MRow → String) (payloadOf : MRow → String)
    (sortStep : List Row → List Row) (currentData : List Row)
    (matched : List MRow) (parsed : Parsed) : SuppliedResult :=
  if matched.length = 0 then SuppliedResult.noChange
  else
    let oldHashes := currentData.map Row.hash
    let st := matched.foldl (suppliedStep cleanHash payloadOf oldHashes)
      (currentData.map some, false)
    if st.2 = true ∧ parsed.limit = some currentData.length then
      SuppliedResult.fullRequery
    else
      let compacted := st.1.filterMap id
      let sorted := if parsed.order then sortStep compacted else compacted
      let limited :=
        match parsed.limit with
        | some l => sorted.take l
        | none => sorted
      let renumbered := renumberFrom 1 limited
      match collectionDiff oldHashes renumbered with
      | none => SuppliedResult.noChange
      | some d => SuppliedResult.changed d renumbered

/-- NOTIFY payload consumed by flattenNotifications: its op and the three
possible row arrays (`data` for INSERT and DELETE, `new_data` and `old_data`
for UPDATE); row contents are opaque strings. -/
structure NPayload where
  op : String
  data : List String
  new_data : List String
  old_data : List String
deriving DecidableEq

/-- Row produced by flattenNotifications: the cloned first element of the
selected array with the synthetic tags set. -/
structure FlatRow where
  row : String
  fop : String
  fkey : String
  fidx : Nat
deriving DecidableEq

/-- Field selection `payload[key]` of the pushItem helper. -/
def selField (p : NPayload) (k : String) : List String :=
  if k = "new_data" then p.new_data
  else if k = "old_data" then p.old_data
  else p.data

/-- pushItem of common.es6 lines 363-369: clone the first element of
`payload[key]` and tag it; on an empty array the clone is `undefined` and the
subsequent field assignment throws, modelled by `none`. -/
def pushItem (p : NPayload) (k : String) (index : Nat) : Option FlatRow :=
  match (selField p k).head? with
  | none => none
  | some x => some ⟨x, p.op, k, index⟩

/-- Recursion of flattenNotifications over the payload list with the running
forEach index `i`. -/
def flattenGo : Nat → List NPayload → Option (List FlatRow)
  | _, [] => some []
  | i, p :: t =>
    match
      (if p.op = "UPDATE" then
        match pushItem p "new_data" i with
        | none => none
        | some a =>
          match pushItem p "old_data" i with
          | none => none
          | some b => some [a, b]
      else
        match pushItem p "data" i with
        | none => none
        | some a => some [a]) with
    | none => none
    | some hd =>
      match flattenGo (i + 1) t with
      | none => none
      | some rest => some (hd ++ rest)

/-- Embedding of flattenNotifications (common.es6 lines 361-382). -/
def flattenNotifications (ns : List NPayload) : Option (List FlatRow) :=
  flattenGo 0 ns

/-- Truncation of every payload row array to its first element. -/
def firstOnly (p : NPayload) : NPayload :=
  ⟨p.op, p.data.take 1, p.new_data.take 1, p.old_data.take 1⟩

/-- Trigger argument passed to select: optional database and a table name.
An empty-string database is falsy in JavaScript and falls back to the
engine default like an absent one. -/
structure TriggerA where
  database : Option String
  table : String
deriving DecidableEq

/-- Dynamically typed JavaScript argument as discriminated by the validation
code of select: a string, a number, a generic object (with its canonical
serialization as tag), null, undefined, a function (with its key-selector
tag, LiveMysqlKeySelector.makeTag being modelled from the spec as a stable
identity string), or a trigger array. -/
inductive JArg
  | jstr (s : String)
  | jnum (n : Int)
  | jobj (tag : String)
  | jnull
  | jundef
  | jfun (tag : String)
  | jtrigs (ts : List TriggerA)
deriving DecidableEq

/-- Query-cache identity key: the canonical serialization of
`(query, values, keySelector tag)` is modelled by the triple itself. -/
abbrev QKey := String × JArg × String

/-- Live subscription handle (LiveMysqlSelect is not part of the sources;
per the spec a Subscription binds a cache to its triggers). -/
structure Sel where
  sid : Nat
  qkey : QKey
  trigs : List TriggerA
deriving DecidableEq

/-- Registry entry: a QueryCache with the ids of the subscriptions attached
to it (QueryCache is not part of the sources; per the spec it owns the set
of subscriptions using it, maintained by attach and by _removeSelect). -/
structure CacheE where
  ckey : QKey
  csel : List Nat
deriving DecidableEq

/-- Engine state touched by select and _removeSelect: the `_select` list,
the `_queryCache` registry, the `_schemaCache` interest-set (database name
to table list, in insertion order), and a counter producing subscription
identities. -/
structure EngineSt where
  selects : List Sel
  registry : List CacheE
  schema : List (String × List String)
  counter : Nat
deriving DecidableEq

/-- Database resolution `triggers[i].database || self.settings.database` of
LiveMysql.js line 152, with the empty string falsy. -/
def resolveDb (dflt : Option String) (t : TriggerA) : Option String :=
  match t.database with
  | some d => if d = "" then dflt else some d
  | none => dflt

/-- Interest-set update for one trigger (lines 156-160): create the database
key with a one-table list, or append the table if not yet present. -/
def addPair (schema : List (String × List String)) (d tbl : String) :
    List (String × List String) :=
  match schema.find? (fun e => decide (e.1 = d)) with
  | none => schema ++ [(d, [tbl])]
  | some _ => schema.map (fun e =>
      if e.1 = d then (e.1, if tbl ∈ e.2 then e.2 else e.2 ++ [tbl]) else e)

/-- Schema-update loop of lines 151-161; the Boolean reports the
no-database-selected throw, after which the updates of the earlier triggers
remain in the returned interest-set (the loop mutates `self._schemaCache` in
place before throwing). -/
def schemaLoop (dflt : Option String) :
    List TriggerA → List (String × List String) →
    List (String × List String) × Bool
  | [], s => (s, false)
  | t :: ts, s =>
    match resolveDb dflt t with
    | none => (s, true)
    | some d => schemaLoop dflt ts (addPair s d t.table)

/-- JavaScript test `typeof values === 'object' || values === undefined`
(null and arrays have typeof object). -/
def typeofObjectOrUndef : JArg → Bool
  | JArg.jobj _ => true
  | JArg.jnull => true
  | JArg.jtrigs _ => true
  | JArg.jundef => true
  | _ => false

/-- Normalization of lines 164-165: null values become undefined before the
cache key is built. -/
def normValues (v : JArg) : JArg :=
  if v = JArg.jnull then JArg.jundef else v

/-- Cache lookup and subscription registration of lines 167-190, after the
validations and the schema loop have run. `miNum` records whether
minInterval was passed as a number; when it is absent and the cache key is
new, line 178 reads `this.slaveSettings.minInterval` although no code ever
assigns `slaveSettings`, so the call throws a TypeError. -/
def selectCore (st : EngineSt) (q : String) (values : JArg) (tag : String)
    (ts : List TriggerA) (miNum : Bool) : Except String Nat × EngineSt :=
  let key : QKey := (q, normValues values, tag)
  match st.registry.find? (fun c => decide (c.ckey = key)) with
  | some _ =>
    (Except.ok st.counter,
     { st with
       selects := st.selects ++ [⟨st.counter, key, ts⟩],
       registry := st.registry.map (fun c =>
         if c.ckey = key then { c with csel := c.csel ++ [st.counter] } else c),
       counter := st.counter + 1 })
  | none =>
    if miNum then
      (Except.ok st.counter,
       { st with
         selects := st.selects ++ [⟨st.counter, key, ts⟩],
         registry := st.registry ++ [⟨key, [st.counter]⟩],
         counter := st.counter + 1 })
    else
      (Except.error "TypeError: cannot read minInterval of undefined slaveSettings", st)

/-- Embedding of LiveMysql.prototype.select (lines 135-191): the five
synchronous validations in source order, then the schema-interest update,
then cache lookup or creation. The returned state is the engine state after
the call even when it throws. -/
def selectModel (dflt : Option String) (st : EngineSt)
    (query values keySelector triggers minInterval : JArg) :
    Except String Nat × EngineSt :=
  match query with
  | JArg.jstr q =>
    if typeofObjectOrUndef values then
      match keySelector with
      | JArg.jfun tag =>
        match triggers with
        | JArg.jtrigs ts =>
          if ts.length = 0 then (Except.error "triggers array required", st)
          else
            match minInterval with
            | JArg.jnum _ =>
              let sl := schemaLoop dflt ts st.schema
              if sl.2 then
                (Except.error "no database selected on trigger",
                 { st with schema := sl.1 })
              else selectCore { st with schema := sl.1 } q values tag ts true
            | JArg.jundef =>
              let sl := schemaLoop dflt ts st.schema
              if sl.2 then
                (Except.error "no database selected on trigger",
                 { st with schema := sl.1 })
              else selectCore { st with schema := sl.1 } q values tag ts false
            | _ => (Except.error "minInterval must be a number or undefined", st)
        | _ => (Except.error "triggers array required", st)
      | _ => (Except.error "keySelector required", st)
    else (Except.error "values must be an object, null, or undefined", st)
  | _ => (Except.error "query must be a string", st)

/-- Embedding of LiveMysql.prototype._removeSelect (lines 193-215): remove
the subscription from `_select`; remove it from its cache and delete the
cache from the registry when it was the last one. The interest-set is not
touched. -/
def removeSelectModel (st : EngineSt) (sid : Nat) : Bool × EngineSt :=
  match st.selects.find? (fun s => decide (s.sid = sid)) with
  | none => (false, st)
  | some sel =>
    let st2 := { st with selects := st.selects.eraseP (fun s => decide (s.sid = sid)) }
    match st2.registry.find? (fun c => decide (c.ckey = sel.qkey)) with
    | none => (true, st2)
    | some c =>
      if sid ∈ c.csel then
        let csel2 := c.csel.eraseP (fun x => decide (x = sid))
        if csel2.length = 0 then
          (true, { st2 with registry :=
            st2.registry.eraseP (fun e => decide (e.ckey = sel.qkey)) })
        else
          (true, { st2 with registry := st2.registry.map (fun e =>
            if e.ckey = sel.qkey then { e with csel := csel2 } else e) })
      else (true, st2)

/-- Engine operation: a select call or a _removeSelect call. -/
inductive EngineOp
  | opSelect (query values keySelector triggers minInterval : JArg)
  | opRemove (sid : Nat)

/-- One engine step. -/
def engineStep (dflt : Option String) (st : EngineSt) : EngineOp → EngineSt
  | EngineOp.opSelect q v k t mi => (selectModel dflt st q v k t mi).2
  | EngineOp.opRemove sid => (removeSelectModel st sid).2

/-- Engine state at construction: no subscriptions, empty registry, empty
interest-set. -/
def initEngine : EngineSt := ⟨[], [], [], 0⟩

/-- Engine state reached by running a sequence of operations from the
initial state; `dflt` is `settings.database`. -/
def runOps (dflt : Option String) (ops : List EngineOp) : EngineSt :=
  ops.foldl (engineStep dflt) initEngine

/-- The interest-set contains the pair (database, table). -/
def pairIn (schema : List (String × List String)) (d tbl : String) : Prop :=
  ∃ e ∈ schema, e.1 = d ∧ tbl ∈ e.2

/-- The interest-set covers every pair of every live subscription trigger. -/
def schemaCovers (dflt : Option String) (st : EngineSt) : Prop :=
  ∀ sel ∈ st.selects, ∀ t ∈ sel.trigs, ∀ d,
    resolveDb dflt t = some d → pairIn st.schema d t.table

/-- The error message of the five synchronous type validations of select
(lines 138-147), in source order, or `none` when all five accept. -/
def argTypeError (query values keySelector triggers minInterval : JArg) :
    Option String :=
  match query with
  | JArg.jstr _ =>
    if typeofObjectOrUndef values then
      match keySelector with
      | JArg.jfun _ =>
        match triggers with
        | JArg.jtrigs ts =>
          if ts.length = 0 then some "triggers array required"
          else
            match minInterval with
            | JArg.jnum _ => none
            | JArg.jundef => none
            | _ => some "minInterval must be a number or undefined"
        | _ => some "triggers array required"
      | _ => some "keySelector required"
    else some "values must be an object, null, or undefined"
  | _ => some "query must be a string"

theorem firstIdx_eq_none_iff {l : List String} {h : String} :
    firstIdx l h = none ↔ h ∉ l := by
  induction l with
  | nil => simp [firstIdx]
  | cons x t ih =>
    by_cases hx : x = h
    · simp [firstIdx, hx]
    · simp only [firstIdx, if_neg hx, Option.map_eq_none', ih, List.mem_cons]
      constructor
      · intro hnt hor
        rcases hor with he | hm
        · exact hx he.symm
        · exact hnt hm
      · intro hcon
        exact fun hm => hcon (Or.inr hm)

theorem firstIdx_getElem {l : List String} {h : String} {i : Nat}
    (hf : firstIdx l h = some i) : l[i]? = some h := by
  induction l generalizing i with
  | nil => simp [firstIdx] at hf
  | cons x t ih =>
    by_cases hx : x = h
    · simp [firstIdx, hx] at hf
      subst hf; simp [hx]
    · simp [firstIdx, hx] at hf
      obtain ⟨j, hj, rfl⟩ := hf
      simpa using ih hj

theorem firstIdx_min {l : List String} {h : String} {i : Nat}
    (hf : firstIdx l h = some i) : ∀ k, k < i → l[k]? ≠ some h := by
  induction l generalizing i with
  | nil => simp [firstIdx] at hf
  | cons x t ih =>
    by_cases hx : x = h
    · simp [firstIdx, hx] at hf
      subst hf; intro k hk; omega
    · simp [firstIdx, hx] at hf
      obtain ⟨j, hj, rfl⟩ := hf
      intro k hk
      cases k with
      | zero => simpa using hx
      | succ k => simpa using ih hj k (by omega)

theorem firstIdx_exists_of_getElem {l : List String} {h : String} {i : Nat}
    (hget : l[i]? = some h) : ∃ j, firstIdx l h = some j ∧ j ≤ i := by
  induction l generalizing i with
  | nil => simp at hget
  | cons x t ih =>
    by_cases hx : x = h
    · exact ⟨0, by simp [firstIdx, hx], Nat.zero_le i⟩
    · cases i with
      | zero => simp at hget; exact absurd hget hx
      | succ i =>
        simp at hget
        obtain ⟨j, hj, hle⟩ := ih hget
        exact ⟨j + 1, by simp [firstIdx, hx, hj], by omega⟩

theorem firstIdx_lt_length {l : List String} {h : String} {i : Nat}
    (hf : firstIdx l h = some i) : i < l.length := by
  have := firstIdx_getElem hf
  exact (List.getElem?_eq_some.mp this).1

/-- On a duplicate-free list, any occurrence is the first occurrence. -/
theorem firstIdx_of_nodup {l : List String} {h : String} {i : Nat}
    (hnd : l.Nodup) (hget : l[i]? = some h) : firstIdx l h = some i := by
  obtain ⟨j, hj, hle⟩ := firstIdx_exists_of_getElem hget
  rcases Nat.lt_or_ge j i with hlt | hge
  · exfalso
    have hji : l[j]? = some h := firstIdx_getElem hj
    have hi : i < l.length := (List.getElem?_eq_some.mp hget).1
    have hjlen : j < l.length := (List.getElem?_eq_some.mp hji).1
    have : l[j] = l[i] := by
      have h1 := (List.getElem?_eq_some.mp hji).2
      have h2 := (List.getElem?_eq_some.mp hget).2
      simp_all
    exact absurd (List.Nodup.getElem_inj_iff hnd |>.mp this) (by omega)
  · have : j = i := by omega
    subst this; exact hj

theorem wget_nil {α : Type} (i : Nat) : wget ([] : List (Option α)) i = none := by
  simp [wget]

theorem wget_cons_succ {α : Type} (c : Option α) (t : List (Option α)) (i : Nat) :
    wget (c :: t) (i + 1) = wget t i := by
  simp [wget]

theorem wget_eq_none_of_le {α : Type} {l : List (Option α)} {i : Nat}
    (h : l.length ≤ i) : wget l i = none := by
  simp [wget, List.getElem?_eq_none h]

theorem wget_setSlot {α : Type} (l : List (Option α)) (i j : Nat) (x : Option α) :
    wget (setSlot l i x) j = if j = i then x else wget l j := by
  induction i generalizing l j with
  | zero =>
    cases l <;> cases j <;> simp [setSlot, wget]
  | succ i ih =>
    cases l with
    | nil =>
      cases j with
      | zero => simp [setSlot, wget]
      | succ j =>
        rw [setSlot, wget_cons_succ, ih, wget_nil, wget_nil]
        simp
    | cons c t =>
      cases j with
      | zero => simp [setSlot, wget]
      | succ j =>
        rw [setSlot, wget_cons_succ, ih, wget_cons_succ]
        simp

theorem length_setSlot {α : Type} (l : List (Option α)) (i : Nat) (x : Option α) :
    (setSlot l i x).length = max l.length (i + 1) := by
  induction i generalizing l with
  | zero => cases l <;> simp [setSlot]
  | succ i ih =>
    cases l with
    | nil => simp [setSlot, ih]
    | cons c t => simp [setSlot, ih]; omega

theorem applyWrites_nil {α : Type} (init : List (Option α)) :
    applyWrites init [] = init := rfl

theorem applyWrites_cons {α : Type} (init : List (Option α)) (w : Nat × Option α)
    (ws : List (Nat × Option α)) :
    applyWrites init (w :: ws) = applyWrites (setSlot init w.1 w.2) ws := rfl

theorem find?_append_or {α : Type} (l₁ l₂ : List α) (p : α → Bool) :
    (l₁ ++ l₂).find? p =
      match l₁.find? p with
      | some a => some a
      | none => l₂.find? p := by
  induction l₁ with
  | nil => simp
  | cons a t ih =>
    cases ha : p a with
    | true => simp [List.find?_cons, ha]
    | false => simp [List.find?_cons, ha, ih]

/-- Last write wins: the live value after a write sequence is the value of the
last write at that position, or the initial value if no write targets it. -/
theorem wget_applyWrites {α : Type} (init : List (Option α))
    (ws : List (Nat × Option α)) (p : Nat) :
    wget (applyWrites init ws) p =
      match ws.reverse.find? (fun w => w.1 == p) with
      | some w => w.2
      | none => wget init p := by
  induction ws generalizing init with
  | nil => simp [applyWrites]
  | cons w ws ih =>
    rw [applyWrites_cons, ih]
    have hrev : (w :: ws).reverse = ws.reverse ++ [w] := by simp
    rw [hrev, find?_append_or]
    cases hf : ws.reverse.find? (fun v => v.1 == p) with
    | some v => simp
    | none =>
      simp only []
      by_cases hp : w.1 = p
      · simp [List.find?, hp, wget_setSlot]
      · have hb : (w.1 == p) = false := by simp [hp]
        simp only [List.find?, hb, wget_setSlot]
        exact if_neg (fun h => hp h.symm)

theorem find?_eq_some_of_unique {α : Type} {l : List α} {p : α → Bool} {a : α}
    (ha : a ∈ l) (hpa : p a = true) (hu : ∀ b ∈ l, p b = true → b = a) :
    l.find? p = some a := by
  induction l with
  | nil => simp at ha
  | cons c t ih =>
    by_cases hc : p c
    · have hca : c = a := hu c (by simp) hc
      subst hca
      simp [List.find?_cons, hc]
    · rw [Bool.not_eq_true] at hc
      have hat : a ∈ t := by
        rcases List.mem_cons.mp ha with rfl | h
        · rw [hpa] at hc; cases hc
        · exact h
      simp only [List.find?_cons, hc]
      exact ih hat (fun b hb hpb => hu b (List.mem_cons_of_mem c hb) hpb)

theorem length_applyWrites_le {α : Type} {init : List (Option α)}
    {ws : List (Nat × Option α)} {N : Nat}
    (hi : init.length ≤ N) (hw : ∀ w ∈ ws, w.1 < N) :
    (applyWrites init ws).length ≤ N := by
  induction ws generalizing init with
  | nil => simpa [applyWrites]
  | cons w ws ih =>
    rw [applyWrites_cons]
    refine ih ?_ (fun v hv => hw v (List.mem_cons_of_mem w hv))
    rw [length_setSlot]
    have := hw w (by simp)
    omega

theorem filterMap_id_eq_filterMap_range {α : Type} (l : List (Option α)) :
    l.filterMap id = (List.range l.length).filterMap (fun p => wget l p) := by
  induction l with
  | nil => simp
  | cons c t ih =>
    have hr : List.range (t.length + 1) = 0 :: (List.range t.length).map (· + 1) :=
      List.range_succ_eq_map t.length
    have hcomp : (List.range t.length).filterMap ((fun p => wget (c :: t) p) ∘ (· + 1))
        = t.filterMap id := by
      have hpt : ∀ p ∈ List.range t.length,
          ((fun p => wget (c :: t) p) ∘ (· + 1)) p = wget t p := by
        intro p _
        simp [Function.comp, wget_cons_succ]
      rw [List.filterMap_congr hpt, ← ih]
    cases c with
    | none =>
      rw [List.length_cons, hr]
      simp only [List.filterMap_cons, List.filterMap_map, hcomp]
      have hw0 : wget ((none : Option α) :: t) 0 = none := by simp [wget]
      simp [hw0]
    | some x =>
      rw [List.length_cons, hr]
      simp only [List.filterMap_cons, List.filterMap_map, hcomp]
      have hw0 : wget (some x :: t) 0 = some x := by simp [wget]
      simp [hw0]

theorem filterMap_wget_range_of_le {α : Type} {l : List (Option α)} {N : Nat}
    (h : l.length ≤ N) :
    (List.range N).filterMap (fun p => wget l p) = l.filterMap id := by
  induction N with
  | zero =>
    have hnil : l = [] := List.eq_nil_of_length_eq_zero (by omega)
    subst hnil; simp
  | succ N ih =>
    rcases Nat.lt_or_ge l.length (N + 1) with hlt | hge
    · have hle : l.length ≤ N := by omega
      rw [List.range_succ, List.filterMap_append, ih hle]
      simp [wget_eq_none_of_le hle]
    · have hlen : l.length = N + 1 := by omega
      rw [filterMap_id_eq_filterMap_range l, hlen]

theorem filterMap_getElem_range_eq {α : Type} (l : List α) :
    (List.range l.length).filterMap (fun p => l[p]?) = l := by
  induction l with
  | nil => simp
  | cons c t ih =>
    have hr : List.range (t.length + 1) = 0 :: (List.range t.length).map (· + 1) :=
      List.range_succ_eq_map t.length
    have hcomp : (List.range t.length).filterMap ((fun p => (c :: t)[p]?) ∘ (· + 1))
        = t := by
      have hpt : ∀ p ∈ List.range t.length,
          ((fun p => (c :: t)[p]?) ∘ (· + 1)) p = t[p]? := by
        intro p _
        simp [Function.comp]
      rw [List.filterMap_congr hpt, ih]
    rw [List.length_cons, hr]
    simp only [List.filterMap_cons, List.filterMap_map, hcomp]
    simp

theorem filterMap_getElem_range {α : Type} {l : List α} {N : Nat}
    (h : l.length ≤ N) :
    (List.range N).filterMap (fun p => l[p]?) = l := by
  induction N with
  | zero =>
    have hnil : l = [] := List.eq_nil_of_length_eq_zero (by omega)
    subst hnil; simp
  | succ N ih =>
    rcases Nat.lt_or_ge l.length (N + 1) with hlt | hge
    · have hle : l.length ≤ N := by omega
      rw [List.range_succ, List.filterMap_append, ih hle]
      simp [List.getElem?_eq_none hle]
    · have hlen : l.length = N + 1 := by omega
      rw [← hlen, filterMap_getElem_range_eq]

theorem getElem?_set_self {α : Type} (l : List α) (i : Nat) (v : α)
    (h : i < l.length) : (l.set i v)[i]? = some v := by
  induction l generalizing i with
  | nil => simp at h
  | cons c t ih =>
    cases i with
    | zero => simp
    | succ i => simpa using ih i (by simpa using h)

theorem getElem?_set_of_ne {α : Type} (l : List α) (i k : Nat) (v : α)
    (h : k ≠ i) : (l.set k v)[i]? = l[i]? := by
  induction l generalizing i k with
  | nil => simp
  | cons c t ih =>
    cases k with
    | zero =>
      cases i with
      | zero => exact absurd rfl h
      | succ i => simp
    | succ k =>
      cases i with
      | zero => simp
      | succ i => simpa using ih i k (fun he => h (by omega))

theorem find?_reverse_hit {α : Type} {L : List (Nat × Option α)} {p : Nat}
    (hex : ∃ w ∈ L, w.1 = p) :
    ∃ w0, L.reverse.find? (fun w => w.1 == p) = some w0 ∧ w0 ∈ L ∧ w0.1 = p := by
  obtain ⟨w, hw, hp⟩ := hex
  have hsome : (L.reverse.find? (fun w => w.1 == p)).isSome := by
    rw [List.find?_isSome]
    exact ⟨w, List.mem_reverse.mpr hw, by simp [hp]⟩
  obtain ⟨w0, hw0⟩ := Option.isSome_iff_exists.mp hsome
  refine ⟨w0, hw0, List.mem_reverse.mp (List.mem_of_find?_eq_some hw0), ?_⟩
  have := List.find?_some hw0
  simpa using this

theorem find?_reverse_none {α : Type} {L : List (Nat × Option α)} {p : Nat}
    (h : ∀ w ∈ L, w.1 ≠ p) :
    L.reverse.find? (fun w => w.1 == p) = none := by
  rw [List.find?_eq_none]
  intro w hw
  simp [h w (List.mem_reverse.mp hw)]

theorem find?_reverse_unique {α : Type} {L : List (Nat × Option α)} {p : Nat}
    {w : Nat × Option α} (hw : w ∈ L) (hwp : w.1 = p)
    (hu : ∀ v ∈ L, v.1 = p → v = w) :
    L.reverse.find? (fun v => v.1 == p) = some w :=
  find?_eq_some_of_unique (List.mem_reverse.mpr hw) (by simp [hwp])
    (fun v hv hb => hu v (List.mem_reverse.mp hv) (by simpa using hb))

theorem mem_addedList {oh : List String} {new : List Row} {r : Row} :
    r ∈ addedList oh new ↔ ∃ j : Nat, new[j]? = some r ∧ firstIdx oh r.hash = none := by
  rw [addedList, List.mem_filterMap]
  constructor
  · rintro ⟨j, _, hG⟩
    cases hn : new[j]? with
    | none => rw [hn] at hG; simp at hG
    | some r0 =>
      rw [hn, Option.some_bind] at hG
      by_cases hfo : firstIdx oh r0.hash = none
      · rw [if_pos hfo] at hG
        obtain rfl : r0 = r := by simpa using hG
        exact ⟨j, hn, hfo⟩
      · rw [if_neg hfo] at hG; simp at hG
  · rintro ⟨j, hn, hfo⟩
    refine ⟨j, List.mem_range.mpr (List.getElem?_eq_some.mp hn).1, ?_⟩
    rw [hn, Option.some_bind, if_pos hfo]

theorem mem_removedList {oh : List String} {new : List Row} {x : Removed} :
    x ∈ removedList oh new ↔
      ∃ (i : Nat) (h : String), oh[i]? = some h ∧ firstIdx (new.map Row.hash) h = none ∧
        x = ⟨i + 1⟩ := by
  rw [removedList, List.mem_filterMap]
  constructor
  · rintro ⟨i, _, hG⟩
    cases hn : oh[i]? with
    | none => rw [hn] at hG; simp at hG
    | some h =>
      rw [hn, Option.some_bind] at hG
      by_cases hfc : firstIdx (new.map Row.hash) h = none
      · rw [if_pos hfc] at hG
        exact ⟨i, h, hn, hfc, by simpa using hG.symm⟩
      · rw [if_neg hfc] at hG; simp at hG
  · rintro ⟨i, h, hn, hfc, rfl⟩
    refine ⟨i, List.mem_range.mpr (List.getElem?_eq_some.mp hn).1, ?_⟩
    rw [hn, Option.some_bind, if_pos hfc]

theorem mem_movedList {oh : List String} {new : List Row} {x : Moved} :
    x ∈ movedList oh new ↔
      ∃ (j : Nat) (h : String) (i : Nat), (new.map Row.hash)[j]? = some h ∧ firstIdx oh h = some i ∧
        firstIdx (new.map Row.hash) h = some j ∧ i ≠ j ∧
        x = ⟨i + 1, j + 1⟩ := by
  rw [movedList, List.mem_filterMap]
  constructor
  · rintro ⟨j, _, hG⟩
    cases hn : (new.map Row.hash)[j]? with
    | none => rw [hn] at hG; simp at hG
    | some h =>
      rw [hn, Option.some_bind] at hG
      cases hfo : firstIdx oh h with
      | none => rw [hfo] at hG; simp at hG
      | some i =>
        rw [hfo, Option.some_bind] at hG
        by_cases hfc : firstIdx (new.map Row.hash) h = some j
        · rw [if_pos hfc] at hG
          by_cases hij : i = j
          · rw [if_pos hij] at hG; simp at hG
          · rw [if_neg hij] at hG
            exact ⟨j, h, i, hn, hfo, hfc, hij, by simpa using hG.symm⟩
        · rw [if_neg hfc] at hG; simp at hG
  · rintro ⟨j, h, i, hn, hfo, hfc, hij, rfl⟩
    refine ⟨j, List.mem_range.mpr ?_, ?_⟩
    · have := (List.getElem?_eq_some.mp hn).1
      simpa using this
    · rw [hn, Option.some_bind, hfo, Option.some_bind, if_pos hfc, if_neg hij]

theorem mem_copiedList {oh : List String} {new : List Row} {x : Copied} :
    x ∈ copiedList oh new ↔
      ∃ (j : Nat) (h : String) (i : Nat), (new.map Row.hash)[j]? = some h ∧ firstIdx oh h = some i ∧
        firstIdx (new.map Row.hash) h ≠ some j ∧
        x = ⟨i + 1, j + 1⟩ := by
  rw [copiedList, List.mem_filterMap]
  constructor
  · rintro ⟨j, _, hG⟩
    cases hn : (new.map Row.hash)[j]? with
    | none => rw [hn] at hG; simp at hG
    | some h =>
      rw [hn, Option.some_bind] at hG
      cases hfo : firstIdx oh h with
      | none => rw [hfo] at hG; simp at hG
      | some i =>
        rw [hfo, Option.some_bind] at hG
        by_cases hfc : firstIdx (new.map Row.hash) h = some j
        · rw [if_pos hfc] at hG; simp at hG
        · rw [if_neg hfc] at hG
          exact ⟨j, h, i, hn, hfo, hfc, by simpa using hG.symm⟩
  · rintro ⟨j, h, i, hn, hfo, hfc, rfl⟩
    refine ⟨j, List.mem_range.mpr ?_, ?_⟩
    · have := (List.getElem?_eq_some.mp hn).1
      simpa using this
    · rw [hn, Option.some_bind, hfo, Option.some_bind, if_neg hfc]

theorem phNullRemoved_cons (nr : List (Option Cell)) (r : Removed) (t : List Removed) :
    phNullRemoved nr (r :: t) =
      phNullRemoved (if r.ridx = 0 then nr else setSlot nr (r.ridx - 1) none) t := rfl

theorem phNullRemoved_eq (nr : List (Option Cell)) (rs : List Removed) :
    phNullRemoved nr rs = applyWrites nr (rs.filterMap (removedWrite Cell)) := by
  induction rs generalizing nr with
  | nil => rfl
  | cons r t ih =>
    rw [phNullRemoved_cons, List.filterMap_cons]
    by_cases h : r.ridx = 0
    · simp [h, removedWrite, ih]
    · simp [h, removedWrite, ih, applyWrites_cons]

theorem phNullMoved_cons (nr : List (Option Cell)) (m : Moved) (t : List Moved) :
    phNullMoved nr (m :: t) =
      phNullMoved (if m.old_index = 0 then nr else setSlot nr (m.old_index - 1) none) t := rfl

theorem phNullMoved_eq (nr : List (Option Cell)) (ms : List Moved) :
    phNullMoved nr ms = applyWrites nr (ms.filterMap (movedNullWrite Cell)) := by
  induction ms generalizing nr with
  | nil => rfl
  | cons m t ih =>
    rw [phNullMoved_cons, List.filterMap_cons]
    by_cases h : m.old_index = 0
    · simp [h, movedNullWrite, ih]
    · simp [h, movedNullWrite, ih, applyWrites_cons]

theorem phAdded_cons (nr : List (Option Cell)) (r : Row) (t : List Row) :
    phAdded nr (r :: t) =
      phAdded (if r.index = 0 then nr else setSlot nr (r.index - 1)
        (some (Sum.inr r))) t := rfl

theorem phAdded_eq (nr : List (Option Cell)) (adds : List Row) :
    phAdded nr adds = applyWrites nr (adds.filterMap addedWrite) := by
  induction adds generalizing nr with
  | nil => rfl
  | cons r t ih =>
    rw [phAdded_cons, List.filterMap_cons]
    by_cases h : r.index = 0
    · simp [h, addedWrite, ih]
    · simp [h, addedWrite, ih, applyWrites_cons]

theorem phCopied_eq (data : List Row) (nr : List (Option Cell)) (cs : List Copied)
    (hv : ∀ c ∈ cs, c.orig_index ≠ 0 ∧ c.orig_index - 1 < data.length) :
    phCopied data nr cs = some (applyWrites nr (cs.filterMap (copiedWrite data))) := by
  induction cs generalizing nr with
  | nil => rfl
  | cons c t ih =>
    obtain ⟨h0, hlt⟩ := hv c (by simp)
    have hr : data[c.orig_index - 1]? = some (data.get ⟨c.orig_index - 1, hlt⟩) :=
      List.getElem?_eq_getElem hlt
    have hstep : phCopied data nr (c :: t) =
        (if c.orig_index = 0 then none
         else
           match data[c.orig_index - 1]? with
           | none => none
           | some r =>
             if c.new_index = 0 then some nr
             else some (setSlot nr (c.new_index - 1)
               (some (Sum.inr { r with index := c.new_index })))).bind
          (fun a => phCopied data a t) := by
      rw [phCopied, List.foldlM_cons]
      rfl
    rw [hstep, if_neg h0, hr, List.filterMap_cons, copiedWrite, hr]
    by_cases hn : c.new_index = 0
    · simp only [if_pos hn, Option.some_bind]
      exact ih nr (fun x hx => hv x (by simp [hx]))
    · simp only [if_neg hn, Option.some_bind]
      rw [ih _ (fun x hx => hv x (by simp [hx])), applyWrites_cons]

theorem mvStore_cons (s : List Row) (m : Moved) (t : List Moved) :
    mvStore s (m :: t) =
      mvStore
        (match s[m.old_index - 1]? with
         | none => s
         | some r => s.set (m.old_index - 1) { r with index := m.new_index }) t := rfl

theorem mvStore_length (s : List Row) (ms : List Moved) :
    (mvStore s ms).length = s.length := by
  induction ms generalizing s with
  | nil => rfl
  | cons m t ih =>
    rw [mvStore_cons]
    cases hr : s[m.old_index - 1]? with
    | none => exact ih s
    | some r => rw [ih]; simp

theorem phMoved_eq (ms : List Moved) (s0 : List Row) (nr : List (Option Cell))
    (hv : ∀ m ∈ ms, m.old_index ≠ 0 ∧ m.old_index - 1 < s0.length) :
    phMoved (s0, nr) ms = some (mvStore s0 ms, applyWrites nr (ms.filterMap movedWrite)) := by
  induction ms generalizing s0 nr with
  | nil => rfl
  | cons m t ih =>
    obtain ⟨h0, hlt⟩ := hv m (by simp)
    have hr : s0[m.old_index - 1]? = some (s0.get ⟨m.old_index - 1, hlt⟩) :=
      List.getElem?_eq_getElem hlt
    have hstep : phMoved (s0, nr) (m :: t) =
        (if m.old_index = 0 then none
         else
           match s0[m.old_index - 1]? with
           | none => none
           | some r =>
             let s2 := s0.set (m.old_index - 1) { r with index := m.new_index }
             if m.new_index = 0 then some (s2, nr)
             else some (s2, setSlot nr (m.new_index - 1)
               (some (Sum.inl (m.old_index - 1))))).bind
          (fun sa => phMoved sa t) := by
      rw [phMoved, List.foldlM_cons]
      rfl
    have hlen : ∀ x ∈ t, x.old_index ≠ 0 ∧ x.old_index - 1 <
        (s0.set (m.old_index - 1)
          { s0.get ⟨m.old_index - 1, hlt⟩ with index := m.new_index }).length := by
      intro x hx
      obtain ⟨hx0, hxlt⟩ := hv x (by simp [hx])
      exact ⟨hx0, by simpa using hxlt⟩
    rw [hstep, if_neg h0, hr, List.filterMap_cons, movedWrite, mvStore_cons, hr]
    by_cases hn : m.new_index = 0
    · simp only [if_pos hn, Option.some_bind]
      exact ih _ nr hlen
    · simp only [if_neg hn, Option.some_bind]
      rw [ih _ _ hlen, applyWrites_cons]

theorem mvStore_getElem_untouched {ms : List Moved} {i : Nat} :
    ∀ (s : List Row), (∀ mv ∈ ms, mv.old_index - 1 ≠ i) →
    (mvStore s ms)[i]? = s[i]? := by
  induction ms with
  | nil => intro s _; rfl
  | cons mv t ih =>
    intro s h
    rw [mvStore_cons]
    cases hr : s[mv.old_index - 1]? with
    | none =>
      simp only []
      exact ih s (fun x hx => h x (List.mem_cons_of_mem mv hx))
    | some r =>
      simp only []
      rw [ih _ (fun x hx => h x (List.mem_cons_of_mem mv hx))]
      exact getElem?_set_of_ne _ _ _ _ (h mv (by simp))

theorem mvStore_getElem_hit {ms : List Moved} {i nv : Nat} :
    ∀ (s : List Row) (r : Row), s[i]? = some r →
    (∃ mv ∈ ms, mv.old_index - 1 = i) →
    (∀ mv ∈ ms, mv.old_index - 1 = i → mv.new_index = nv) →
    (mvStore s ms)[i]? = some { r with index := nv } := by
  induction ms with
  | nil =>
    rintro s r _ ⟨mv, hmv, _⟩ _
    simp at hmv
  | cons mv t ih =>
    intro s r hr hex hagree
    rw [mvStore_cons]
    by_cases hmi : mv.old_index - 1 = i
    · rw [hmi, hr]
      simp only []
      have hnv : mv.new_index = nv := hagree mv (by simp) hmi
      rw [hnv]
      have hlen : i < s.length := (List.getElem?_eq_some.mp hr).1
      by_cases hex2 : ∃ mv2 ∈ t, mv2.old_index - 1 = i
      · have := ih (s.set i { r with index := nv }) { r with index := nv }
          (getElem?_set_self _ _ _ hlen) hex2
          (fun x hx hxi => hagree x (by simp [hx]) hxi)
        simpa using this
      · push_neg at hex2
        rw [mvStore_getElem_untouched _ (fun x hx => hex2 x hx)]
        exact getElem?_set_self _ _ _ hlen
    · have hex2 : ∃ mv2 ∈ t, mv2.old_index - 1 = i := by
        obtain ⟨mv2, hmv2, hi2⟩ := hex
        rcases List.mem_cons.mp hmv2 with rfl | hm
        · exact absurd hi2 hmi
        · exact ⟨mv2, hm, hi2⟩
      cases hrd : s[mv.old_index - 1]? with
      | none =>
        simp only []
        exact ih s r hr hex2 (fun x hx => hagree x (by simp [hx]))
      | some r2 =>
        simp only []
        have hpres : (s.set (mv.old_index - 1)
            { r2 with index := mv.new_index })[i]? = some r := by
          rw [getElem?_set_of_ne _ _ _ _ hmi]
          exact hr
        exact ih _ r hpres hex2 (fun x hx => hagree x (by simp [hx]))

theorem wget_initCells (data : List Row) (p : Nat) :
    wget (initCells data) p =
      if p < data.length then some (Sum.inl p) else none := by
  by_cases h : p < data.length
  · rw [if_pos h]
    have : (initCells data)[p]? = some (some (Sum.inl p)) := by
      rw [initCells, List.getElem?_map]
      simp [List.getElem?_range h]
    simp [wget, this]
  · rw [if_neg h]
    apply wget_eq_none_of_le
    simp [initCells]
    omega

theorem removedWrite_values {oh : List String} {new : List Row} :
    ∀ w ∈ (removedList oh new).filterMap (removedWrite Cell), w.2 = none := by
  intro w hw
  rw [List.mem_filterMap] at hw
  obtain ⟨x, _, hx⟩ := hw
  rw [removedWrite] at hx
  by_cases h : x.ridx = 0
  · rw [if_pos h] at hx; simp at hx
  · rw [if_neg h] at hx
    obtain rfl : (x.ridx - 1, (none : Option Cell)) = w := by simpa using hx
    rfl

theorem movedNullWrite_values {oh : List String} {new : List Row} :
    ∀ w ∈ (movedList oh new).filterMap (movedNullWrite Cell), w.2 = none := by
  intro w hw
  rw [List.mem_filterMap] at hw
  obtain ⟨x, _, hx⟩ := hw
  rw [movedNullWrite] at hx
  by_cases h : x.old_index = 0
  · rw [if_pos h] at hx; simp at hx
  · rw [if_neg h] at hx
    obtain rfl : (x.old_index - 1, (none : Option Cell)) = w := by simpa using hx
    rfl

/-- Decomposition of applyDiff on the diff produced by the modelled differ:
all phases succeed and the result is described by the roundtrip write
cascade and store. -/
theorem applyDiff_on_differ (old new : List Row) :
    applyDiff old ⟨some (addedList (old.map Row.hash) new),
        some (removedList (old.map Row.hash) new),
        some (movedList (old.map Row.hash) new),
        some (copiedList (old.map Row.hash) new)⟩ =
      some (((rtFinal old new).filterMap id).map (deref (rtStore old new)),
        rtStore old new) := by
  have hvc : ∀ c ∈ copiedList (old.map Row.hash) new,
      c.orig_index ≠ 0 ∧ c.orig_index - 1 < old.length := by
    intro c hc
    obtain ⟨j, h, i, hn, hfo, hfc, rfl⟩ := mem_copiedList.mp hc
    have hi : i < old.length := by
      have := firstIdx_lt_length hfo
      simpa using this
    refine ⟨by simp, ?_⟩
    simpa using hi
  have hvm : ∀ m ∈ movedList (old.map Row.hash) new,
      m.old_index ≠ 0 ∧ m.old_index - 1 < old.length := by
    intro m hm
    obtain ⟨j, h, i, hn, hfo, hfc, hij, rfl⟩ := mem_movedList.mp hm
    have hi : i < old.length := by
      have := firstIdx_lt_length hfo
      simpa using this
    refine ⟨by simp, ?_⟩
    simpa using hi
  rw [applyDiff]
  simp only [Option.getD_some]
  rw [phNullRemoved_eq, phNullMoved_eq,
    phCopied_eq old _ _ hvc]
  simp only []
  rw [phMoved_eq _ old _ hvm]
  simp only []
  rw [phAdded_eq]
  rfl

theorem rt_rw_targets {old new : List Row} :
    ∀ w ∈ (removedList (old.map Row.hash) new).filterMap (removedWrite Cell),
      w.1 < old.length := by
  intro w hw
  rw [List.mem_filterMap] at hw
  obtain ⟨x, hx, hxw⟩ := hw
  obtain ⟨i, h, hh, _, rfl⟩ := mem_removedList.mp hx
  have hi : i < old.length := by
    have := (List.getElem?_eq_some.mp hh).1
    simpa using this
  rw [removedWrite] at hxw
  simp at hxw
  subst hxw
  simpa using hi

theorem rt_mnw_targets {old new : List Row} :
    ∀ w ∈ (movedList (old.map Row.hash) new).filterMap (movedNullWrite Cell),
      w.1 < old.length := by
  intro w hw
  rw [List.mem_filterMap] at hw
  obtain ⟨x, hx, hxw⟩ := hw
  obtain ⟨j, h, i, _, hfo, _, _, rfl⟩ := mem_movedList.mp hx
  have hi : i < old.length := by
    have := firstIdx_lt_length hfo
    simpa using this
  rw [movedNullWrite] at hxw
  simp at hxw
  subst hxw
  simpa using hi

theorem rt_cw_targets {old new : List Row} :
    ∀ w ∈ (copiedList (old.map Row.hash) new).filterMap (copiedWrite old),
      w.1 < new.length := by
  intro w hw
  rw [List.mem_filterMap] at hw
  obtain ⟨x, hx, hxw⟩ := hw
  obtain ⟨j, h, i, hch, _, _, rfl⟩ := mem_copiedList.mp hx
  have hj : j < new.length := by
    have := (List.getElem?_eq_some.mp hch).1
    simpa using this
  rw [copiedWrite] at hxw
  cases hrd : old[(Copied.mk (i + 1) (j + 1)).orig_index - 1]? with
  | none => rw [hrd] at hxw; simp at hxw
  | some r0 =>
    rw [hrd] at hxw
    simp at hxw
    subst hxw
    simpa using hj

theorem rt_mw_targets {old new : List Row} :
    ∀ w ∈ (movedList (old.map Row.hash) new).filterMap movedWrite,
      w.1 < new.length := by
  intro w hw
  rw [List.mem_filterMap] at hw
  obtain ⟨x, hx, hxw⟩ := hw
  obtain ⟨j, h, i, hch, _, _, _, rfl⟩ := mem_movedList.mp hx
  have hj : j < new.length := by
    have := (List.getElem?_eq_some.mp hch).1
    simpa using this
  rw [movedWrite] at hxw
  simp at hxw
  subst hxw
  simpa using hj

theorem rt_aw_targets {old new : List Row}
    (hNewIdx : ∀ j (h : j < new.length), (new.get ⟨j, h⟩).index = j + 1) :
    ∀ w ∈ (addedList (old.map Row.hash) new).filterMap addedWrite,
      w.1 < new.length := by
  intro w hw
  rw [List.mem_filterMap] at hw
  obtain ⟨r, hr, hrw⟩ := hw
  obtain ⟨j, hj, _⟩ := mem_addedList.mp hr
  have hjlt : j < new.length := (List.getElem?_eq_some.mp hj).1
  have hg : new.get ⟨j, hjlt⟩ = r := by
    have := (List.getElem?_eq_some.mp hj).2
    simpa using this
  have hidx : r.index = j + 1 := by
    have := hNewIdx j hjlt
    rw [hg] at this
    exact this
  rw [addedWrite, hidx] at hrw
  simp at hrw
  subst hrw
  simpa using hjlt

theorem rt_aw_find_none {old new : List Row}
    (hNewIdx : ∀ j (h : j < new.length), (new.get ⟨j, h⟩).index = j + 1) (p : Nat)
    (hp : ∀ r : Row, new[p]? = some r → firstIdx (old.map Row.hash) r.hash ≠ none) :
    ((addedList (old.map Row.hash) new).filterMap addedWrite).reverse.find?
      (fun w => w.1 == p) = none := by
  apply find?_reverse_none
  intro w hw
  rw [List.mem_filterMap] at hw
  obtain ⟨r, hr, hrw⟩ := hw
  obtain ⟨j, hj, hfo⟩ := mem_addedList.mp hr
  have hjlt : j < new.length := (List.getElem?_eq_some.mp hj).1
  have hg : new.get ⟨j, hjlt⟩ = r := by
    have := (List.getElem?_eq_some.mp hj).2
    simpa using this
  have hidx : r.index = j + 1 := by
    have := hNewIdx j hjlt
    rw [hg] at this
    exact this
  rw [addedWrite, hidx] at hrw
  simp at hrw
  subst hrw
  intro hwp
  simp at hwp
  subst hwp
  exact hp r hj hfo

theorem rt_aw_find_hit {old new : List Row}
    (hNewIdx : ∀ j (h : j < new.length), (new.get ⟨j, h⟩).index = j + 1)
    (p : Nat) (r : Row)
    (hr : new[p]? = some r)
    (hfo : firstIdx (old.map Row.hash) r.hash = none) :
    ((addedList (old.map Row.hash) new).filterMap addedWrite).reverse.find?
      (fun w => w.1 == p) = some (p, some (Sum.inr r)) := by
  have hplt : p < new.length := (List.getElem?_eq_some.mp hr).1
  have hidx : r.index = p + 1 := by
    have hg : new.get ⟨p, hplt⟩ = r := by
      have := (List.getElem?_eq_some.mp hr).2
      simpa using this
    have := hNewIdx p hplt
    rw [hg] at this
    exact this
  apply find?_reverse_unique
  · rw [List.mem_filterMap]
    refine ⟨r, mem_addedList.mpr ⟨p, hr, hfo⟩, ?_⟩
    rw [addedWrite, hidx]
    simp
  · rfl
  · intro v hv hvp
    rw [List.mem_filterMap] at hv
    obtain ⟨r2, hr2, hr2w⟩ := hv
    obtain ⟨j2, hj2, hfo2⟩ := mem_addedList.mp hr2
    have hj2lt : j2 < new.length := (List.getElem?_eq_some.mp hj2).1
    have hidx2 : r2.index = j2 + 1 := by
      have hg2 : new.get ⟨j2, hj2lt⟩ = r2 := by
        have := (List.getElem?_eq_some.mp hj2).2
        simpa using this
      have := hNewIdx j2 hj2lt
      rw [hg2] at this
      exact this
    rw [addedWrite, hidx2] at hr2w
    simp at hr2w
    subst hr2w
    simp at hvp
    subst hvp
    have hreq : r2 = r := by
      rw [hj2] at hr
      simpa using hr
    rw [hreq]

theorem rt_mw_find_none {old new : List Row} (p : Nat)
    (hp : ∀ (h : String) (i : Nat), (new.map Row.hash)[p]? = some h →
      firstIdx (old.map Row.hash) h = some i →
      firstIdx (new.map Row.hash) h = some p → i = p) :
    ((movedList (old.map Row.hash) new).filterMap movedWrite).reverse.find?
      (fun w => w.1 == p) = none := by
  apply find?_reverse_none
  intro w hw
  rw [List.mem_filterMap] at hw
  obtain ⟨x, hx, hxw⟩ := hw
  obtain ⟨j, h, i, hch, hfo, hfc, hij, rfl⟩ := mem_movedList.mp hx
  rw [movedWrite] at hxw
  simp at hxw
  subst hxw
  intro hwp
  simp at hwp
  subst hwp
  exact hij (hp h i hch hfo hfc)

theorem rt_mw_find_hit {old new : List Row} (p : Nat) (h : String) (i : Nat)
    (hch : (new.map Row.hash)[p]? = some h)
    (hfo : firstIdx (old.map Row.hash) h = some i)
    (hfc : firstIdx (new.map Row.hash) h = some p)
    (hip : i ≠ p) :
    ((movedList (old.map Row.hash) new).filterMap movedWrite).reverse.find?
      (fun w => w.1 == p) = some (p, some (Sum.inl i)) := by
  apply find?_reverse_unique
  · rw [List.mem_filterMap]
    refine ⟨⟨i + 1, p + 1⟩, mem_movedList.mpr ⟨p, h, i, hch, hfo, hfc, hip, rfl⟩, ?_⟩
    rw [movedWrite]
    simp
  · rfl
  · intro v hv hvp
    rw [List.mem_filterMap] at hv
    obtain ⟨x2, hx2, hx2w⟩ := hv
    obtain ⟨j2, h2, i2, hch2, hfo2, hfc2, hij2, rfl⟩ := mem_movedList.mp hx2
    rw [movedWrite] at hx2w
    simp at hx2w
    subst hx2w
    simp at hvp
    subst hvp
    have hh2 : h2 = h := by
      rw [hch2] at hch
      simpa using hch
    subst hh2
    have : i2 = i := by
      rw [hfo2] at hfo
      simpa using hfo
    rw [this]

theorem rt_cw_find_none {old new : List Row} (p : Nat)
    (hp : ∀ h : String, (new.map Row.hash)[p]? = some h →
      firstIdx (old.map Row.hash) h = none ∨
      firstIdx (new.map Row.hash) h = some p) :
    ((copiedList (old.map Row.hash) new).filterMap (copiedWrite old)).reverse.find?
      (fun w => w.1 == p) = none := by
  apply find?_reverse_none
  intro w hw
  rw [List.mem_filterMap] at hw
  obtain ⟨x, hx, hxw⟩ := hw
  obtain ⟨j, h, i, hch, hfo, hfc, rfl⟩ := mem_copiedList.mp hx
  rw [copiedWrite] at hxw
  cases hrd : old[(Copied.mk (i + 1) (j + 1)).orig_index - 1]? with
  | none => rw [hrd] at hxw; simp at hxw
  | some r0 =>
    rw [hrd] at hxw
    simp at hxw
    subst hxw
    intro hwp
    simp at hwp
    subst hwp
    rcases hp h hch with hl | hr
    · rw [hl] at hfo; cases hfo
    · exact hfc hr

theorem rt_cw_find_hit {old new : List Row} (p : Nat) (h : String) (i : Nat)
    (r0 : Row)
    (hch : (new.map Row.hash)[p]? = some h)
    (hfo : firstIdx (old.map Row.hash) h = some i)
    (hfcp : firstIdx (new.map Row.hash) h ≠ some p)
    (hr0 : old[i]? = some r0) :
    ((copiedList (old.map Row.hash) new).filterMap (copiedWrite old)).reverse.find?
      (fun w => w.1 == p) =
      some (p, some (Sum.inr { r0 with index := p + 1 })) := by
  apply find?_reverse_unique
  · rw [List.mem_filterMap]
    refine ⟨⟨i + 1, p + 1⟩, mem_copiedList.mpr ⟨p, h, i, hch, hfo, hfcp, rfl⟩, ?_⟩
    rw [copiedWrite]
    have : (Copied.mk (i + 1) (p + 1)).orig_index - 1 = i := by simp
    rw [this, hr0]
    simp
  · rfl
  · intro v hv hvp
    rw [List.mem_filterMap] at hv
    obtain ⟨x2, hx2, hx2w⟩ := hv
    obtain ⟨j2, h2, i2, hch2, hfo2, hfc2, rfl⟩ := mem_copiedList.mp hx2
    rw [copiedWrite] at hx2w
    cases hrd : old[(Copied.mk (i2 + 1) (j2 + 1)).orig_index - 1]? with
    | none => rw [hrd] at hx2w; simp at hx2w
    | some r2 =>
      rw [hrd] at hx2w
      simp at hx2w
      subst hx2w
      simp at hvp
      have hh2 : h2 = h := by
        rw [hvp] at hch2
        rw [hch2] at hch
        simpa using hch
      have hii : i2 = i := by
        rw [hh2] at hfo2
        rw [hfo2] at hfo
        simpa using hfo
      have hr2 : r2 = r0 := by
        have he : (Copied.mk (i2 + 1) (j2 + 1)).orig_index - 1 = i2 := by simp
        rw [he, hii] at hrd
        rw [hrd] at hr0
        simpa using hr0
      rw [hvp, hr2]

theorem rt_mnw_find_none {old new : List Row} (p : Nat)
    (hp : ∀ h : String, (old.map Row.hash)[p]? = some h →
      firstIdx (new.map Row.hash) h = none ∨
      firstIdx (new.map Row.hash) h = some p) :
    ((movedList (old.map Row.hash) new).filterMap (movedNullWrite Cell)).reverse.find?
      (fun w => w.1 == p) = none := by
  apply find?_reverse_none
  intro w hw
  rw [List.mem_filterMap] at hw
  obtain ⟨x, hx, hxw⟩ := hw
  obtain ⟨j, h, i, hch, hfo, hfc, hij, rfl⟩ := mem_movedList.mp hx
  rw [movedNullWrite] at hxw
  simp at hxw
  subst hxw
  intro hwp
  simp at hwp
  rw [hwp] at hfo
  have hop : (old.map Row.hash)[p]? = some h := firstIdx_getElem hfo
  rcases hp h hop with hl | hr
  · rw [hl] at hfc; cases hfc
  · rw [hr] at hfc
    have hpj : p = j := by simpa using hfc
    exact hij (hwp.trans hpj)

theorem rt_mnw_find_hit {old new : List Row} (p : Nat) (h : String) (j : Nat)
    (hfo : firstIdx (old.map Row.hash) h = some p)
    (hfc : firstIdx (new.map Row.hash) h = some j)
    (hpj : p ≠ j) :
    ∃ w0, ((movedList (old.map Row.hash) new).filterMap
        (movedNullWrite Cell)).reverse.find? (fun w => w.1 == p) = some w0 ∧
      w0.2 = none := by
  have hch : (new.map Row.hash)[j]? = some h := firstIdx_getElem hfc
  have hmem : ((p, none) : Nat × Option Cell) ∈
      (movedList (old.map Row.hash) new).filterMap (movedNullWrite Cell) := by
    rw [List.mem_filterMap]
    refine ⟨⟨p + 1, j + 1⟩, mem_movedList.mpr ⟨j, h, p, hch, hfo, hfc, hpj, rfl⟩, ?_⟩
    rw [movedNullWrite]
    simp
  obtain ⟨w0, hw0, hw0mem, _⟩ := find?_reverse_hit ⟨(p, none), hmem, rfl⟩
  exact ⟨w0, hw0, movedNullWrite_values w0 hw0mem⟩

theorem rt_rw_find_none {old new : List Row} (p : Nat)
    (hp : ∀ h : String, (old.map Row.hash)[p]? = some h →
      firstIdx (new.map Row.hash) h ≠ none) :
    ((removedList (old.map Row.hash) new).filterMap (removedWrite Cell)).reverse.find?
      (fun w => w.1 == p) = none := by
  apply find?_reverse_none
  intro w hw
  rw [List.mem_filterMap] at hw
  obtain ⟨x, hx, hxw⟩ := hw
  obtain ⟨i, h, hh, hfc, rfl⟩ := mem_removedList.mp hx
  rw [removedWrite] at hxw
  simp at hxw
  subst hxw
  intro hwp
  simp at hwp
  subst hwp
  exact hp h hh hfc

theorem rt_rw_find_hit {old new : List Row} (p : Nat) (h : String)
    (hh : (old.map Row.hash)[p]? = some h)
    (hfc : firstIdx (new.map Row.hash) h = none) :
    ∃ w0, ((removedList (old.map Row.hash) new).filterMap
        (removedWrite Cell)).reverse.find? (fun w => w.1 == p) = some w0 ∧
      w0.2 = none := by
  have hmem : ((p, none) : Nat × Option Cell) ∈
      (removedList (old.map Row.hash) new).filterMap (removedWrite Cell) := by
    rw [List.mem_filterMap]
    refine ⟨⟨p + 1⟩, mem_removedList.mpr ⟨p, h, hh, hfc, rfl⟩, ?_⟩
    rw [removedWrite]
    simp
  obtain ⟨w0, hw0, hw0mem, _⟩ := find?_reverse_hit ⟨(p, none), hmem, rfl⟩
  exact ⟨w0, hw0, removedWrite_values w0 hw0mem⟩

theorem row_eq {a b : Row} (hh : a.hash = b.hash) (hp : a.payload = b.payload)
    (hi : a.index = b.index) : a = b := by
  cases a; cases b; simp_all

theorem getElem?_map_hash {l : List Row} {p : Nat} (h : p < l.length) :
    (l.map Row.hash)[p]? = some ((l.get ⟨p, h⟩).hash) := by
  rw [List.getElem?_map, List.getElem?_eq_getElem h]
  rfl

theorem rt_row_moved {old new : List Row}
    (hNewIdx : ∀ j (h : j < new.length), (new.get ⟨j, h⟩).index = j + 1)
    (hStable : ∀ r ∈ old, ∀ s ∈ new, r.hash = s.hash → r.payload = s.payload)
    {i p : Nat} (hilt : i < old.length) (hplt : p < new.length)
    (hhash : (old.get ⟨i, hilt⟩).hash = (new.get ⟨p, hplt⟩).hash) :
    { old.get ⟨i, hilt⟩ with index := p + 1 } = new.get ⟨p, hplt⟩ := by
  apply row_eq
  · simpa using hhash
  · simpa using hStable (old.get ⟨i, hilt⟩) (old.get_mem i hilt)
      (new.get ⟨p, hplt⟩) (new.get_mem p hplt) hhash
  · simpa using (hNewIdx p hplt).symm

theorem rt_row_unchanged {old new : List Row}
    (hOldIdx : ∀ i (h : i < old.length), (old.get ⟨i, h⟩).index = i + 1)
    (hNewIdx : ∀ j (h : j < new.length), (new.get ⟨j, h⟩).index = j + 1)
    (hStable : ∀ r ∈ old, ∀ s ∈ new, r.hash = s.hash → r.payload = s.payload)
    {p : Nat} (hplt : p < old.length) (hplt2 : p < new.length)
    (hhash : (old.get ⟨p, hplt⟩).hash = (new.get ⟨p, hplt2⟩).hash) :
    old.get ⟨p, hplt⟩ = new.get ⟨p, hplt2⟩ := by
  apply row_eq
  · exact hhash
  · exact hStable (old.get ⟨p, hplt⟩) (old.get_mem p hplt)
      (new.get ⟨p, hplt2⟩) (new.get_mem p hplt2) hhash
  · rw [hOldIdx p hplt, hNewIdx p hplt2]

/-- Per-slot description of the final working array of applyDiff on the
differ output: reading slot p through the final store gives exactly the new
row at p. -/
theorem rt_master {old new : List Row}
    (hOldIdx : ∀ i (h : i < old.length), (old.get ⟨i, h⟩).index = i + 1)
    (hNewIdx : ∀ j (h : j < new.length), (new.get ⟨j, h⟩).index = j + 1)
    (hStable : ∀ r ∈ old, ∀ s ∈ new, r.hash = s.hash → r.payload = s.payload)
    (hNodup : (old.map Row.hash).Nodup) (p : Nat) :
    (wget (rtFinal old new) p).map (deref (rtStore old new)) = new[p]? := by
  simp only [rtFinal]
  cases hp : new[p]? with
  | none =>
    have hpn : new.length ≤ p := by
      by_contra hcon
      push_neg at hcon
      rw [List.getElem?_eq_getElem hcon] at hp
      cases hp
    have haw : ((addedList (old.map Row.hash) new).filterMap addedWrite).reverse.find?
        (fun w => w.1 == p) = none :=
      find?_reverse_none (fun w hw => by
        have := rt_aw_targets hNewIdx w hw; omega)
    have hmw : ((movedList (old.map Row.hash) new).filterMap movedWrite).reverse.find?
        (fun w => w.1 == p) = none :=
      find?_reverse_none (fun w hw => by
        have := rt_mw_targets w hw; omega)
    have hcw : ((copiedList (old.map Row.hash) new).filterMap
        (copiedWrite old)).reverse.find? (fun w => w.1 == p) = none :=
      find?_reverse_none (fun w hw => by
        have := rt_cw_targets w hw; omega)
    rw [wget_applyWrites, haw]
    simp only []
    rw [wget_applyWrites, hmw]
    simp only []
    rw [wget_applyWrites, hcw]
    simp only []
    by_cases hpm : p < old.length
    · have hoh : (old.map Row.hash)[p]? = some ((old.get ⟨p, hpm⟩).hash) :=
        getElem?_map_hash hpm
      cases hfc : firstIdx (new.map Row.hash) ((old.get ⟨p, hpm⟩).hash) with
      | none =>
        have hmnw := @rt_mnw_find_none old new p (fun h2 hh2 => by
          have hh : h2 = (old.get ⟨p, hpm⟩).hash := by
            rw [hoh] at hh2
            simpa using hh2.symm
          rw [hh]
          exact Or.inl hfc)
        rw [wget_applyWrites, hmnw]
        simp only []
        obtain ⟨w0, hw0, hw0v⟩ := rt_rw_find_hit p ((old.get ⟨p, hpm⟩).hash) hoh hfc
        rw [wget_applyWrites, hw0]
        simp only []
        rw [hw0v]
        rfl
      | some j =>
        have hfo : firstIdx (old.map Row.hash) ((old.get ⟨p, hpm⟩).hash) = some p :=
          firstIdx_of_nodup hNodup hoh
        have hpj : p ≠ j := by
          have hjlt : j < new.length := by
            have := firstIdx_lt_length hfc
            simpa using this
          omega
        obtain ⟨w0, hw0, hw0v⟩ :=
          rt_mnw_find_hit p ((old.get ⟨p, hpm⟩).hash) j hfo hfc hpj
        rw [wget_applyWrites, hw0]
        simp only []
        rw [hw0v]
        rfl
    · have hmnw : ((movedList (old.map Row.hash) new).filterMap
          (movedNullWrite Cell)).reverse.find? (fun w => w.1 == p) = none :=
        find?_reverse_none (fun w hw => by
          have := rt_mnw_targets w hw; omega)
      have hrw : ((removedList (old.map Row.hash) new).filterMap
          (removedWrite Cell)).reverse.find? (fun w => w.1 == p) = none :=
        find?_reverse_none (fun w hw => by
          have := rt_rw_targets w hw; omega)
      rw [wget_applyWrites, hmnw]
      simp only []
      rw [wget_applyWrites, hrw]
      simp only []
      rw [wget_initCells, if_neg hpm]
      rfl
  | some r =>
    have hplt : p < new.length := (List.getElem?_eq_some.mp hp).1
    have hgp : new.get ⟨p, hplt⟩ = r := by
      have := (List.getElem?_eq_some.mp hp).2
      simpa using this
    have hch : (new.map Row.hash)[p]? = some r.hash := by
      rw [getElem?_map_hash hplt, hgp]
    have hridx : r.index = p + 1 := by
      have := hNewIdx p hplt
      rw [hgp] at this
      exact this
    cases hfo : firstIdx (old.map Row.hash) r.hash with
    | none =>
      have haw := rt_aw_find_hit hNewIdx p r hp hfo
      rw [wget_applyWrites, haw]
      simp only []
      rfl
    | some i =>
      have hoi : (old.map Row.hash)[i]? = some r.hash := firstIdx_getElem hfo
      have hilt : i < old.length := by
        have := firstIdx_lt_length hfo
        simpa using this
      have hgoi : (old.get ⟨i, hilt⟩).hash = r.hash := by
        rw [getElem?_map_hash hilt] at hoi
        simpa using hoi
      have haw := rt_aw_find_none hNewIdx p (fun r2 hr2 => by
        have : r2 = r := by
          rw [hp] at hr2
          simpa using hr2.symm
        rw [this, hfo]
        simp)
      rw [wget_applyWrites, haw]
      simp only []
      by_cases hfcp : firstIdx (new.map Row.hash) r.hash = some p
      · by_cases hip : i = p
        · have hmw := @rt_mw_find_none old new p
            (fun h2 i2 hch2 hfo2 hfc2 => by
              have hh : h2 = r.hash := by
                rw [hch] at hch2
                simpa using hch2.symm
              rw [hh] at hfo2
              rw [hfo] at hfo2
              have : i = i2 := by simpa using hfo2
              omega)
          have hcw := @rt_cw_find_none old new p (fun h2 hch2 => by
            have hh : h2 = r.hash := by
              rw [hch] at hch2
              simpa using hch2.symm
            rw [hh]
            exact Or.inr hfcp)
          have hmnw := @rt_mnw_find_none old new p (fun h2 hh2 => by
            have hpm2 : p < old.length := hip ▸ hilt
            have hh : h2 = r.hash := by
              rw [hip] at hoi
              rw [hoi] at hh2
              simpa using hh2.symm
            rw [hh]
            exact Or.inr hfcp)
          have hrw := @rt_rw_find_none old new p (fun h2 hh2 => by
            have hh : h2 = r.hash := by
              rw [hip] at hoi
              rw [hoi] at hh2
              simpa using hh2.symm
            rw [hh, hfcp]
            simp)
          rw [wget_applyWrites, hmw]
          simp only []
          rw [wget_applyWrites, hcw]
          simp only []
          rw [wget_applyWrites, hmnw]
          simp only []
          rw [wget_applyWrites, hrw]
          simp only []
          rw [wget_initCells, if_pos (hip ▸ hilt)]
          have hsp : (rtStore old new)[p]? = old[p]? := by
            rw [rtStore]
            apply mvStore_getElem_untouched
            intro mv hmv hcon
            obtain ⟨j2, h2, i2, hch2, hfo2, hfc2, hij2, heq⟩ := mem_movedList.mp hmv
            rw [heq] at hcon
            simp at hcon
            rw [hcon] at hfo2
            have hh2 : h2 = r.hash := by
              have := firstIdx_getElem hfo2
              rw [hip] at hoi
              rw [this] at hoi
              simpa using hoi
            rw [hh2] at hfc2
            rw [hfcp] at hfc2
            have : p = j2 := by simpa using hfc2
            omega
          have hov : old[p]? = some (old.get ⟨p, hip ▸ hilt⟩) :=
            List.getElem?_eq_getElem (hip ▸ hilt)
          have hroweq : old.get ⟨p, hip ▸ hilt⟩ = r := by
            have hgopp : old.get ⟨p, hip ▸ hilt⟩ = old.get ⟨i, hilt⟩ := by
              cases hip
              rfl
            have hhash : (old.get ⟨p, hip ▸ hilt⟩).hash = (new.get ⟨p, hplt⟩).hash := by
              rw [hgp, hgopp, hgoi]
            have hre := rt_row_unchanged hOldIdx hNewIdx hStable (hip ▸ hilt) hplt hhash
            rw [hre, hgp]
          show some ((rtStore old new).getD p default) = some r
          rw [List.getD_eq_getElem?_getD, hsp, hov]
          simp only [Option.getD_some, Option.some.injEq]
          exact hroweq
        · have hmw := rt_mw_find_hit p r.hash i hch hfo hfcp hip
          rw [wget_applyWrites, hmw]
          simp only []
          have hsi : (rtStore old new)[i]? =
              some { old.get ⟨i, hilt⟩ with index := p + 1 } := by
            rw [rtStore]
            apply mvStore_getElem_hit old (old.get ⟨i, hilt⟩)
              (List.getElem?_eq_getElem hilt)
            · refine ⟨⟨i + 1, p + 1⟩,
                mem_movedList.mpr ⟨p, r.hash, i, hch, hfo, hfcp, hip, rfl⟩, by simp⟩
            · intro mv hmv hcon
              obtain ⟨j2, h2, i2, hch2, hfo2, hfc2, hij2, heq⟩ := mem_movedList.mp hmv
              rw [heq] at hcon
              simp at hcon
              rw [hcon] at hfo2
              have hh2 : h2 = r.hash := by
                have := firstIdx_getElem hfo2
                rw [this] at hoi
                simpa using hoi
              rw [hh2] at hfc2
              rw [hfcp] at hfc2
              have : p = j2 := by simpa using hfc2
              rw [heq]
              simp
              omega
          show some ((rtStore old new).getD i default) = some r
          rw [List.getD_eq_getElem?_getD, hsi]
          simp only [Option.getD_some]
          rw [rt_row_moved hNewIdx hStable hilt hplt (by rw [hgp, hgoi]), hgp]
      · have hmw := @rt_mw_find_none old new p
          (fun h2 i2 hch2 hfo2 hfc2 => by
            have hh : h2 = r.hash := by
              rw [hch] at hch2
              simpa using hch2.symm
            rw [hh] at hfc2
            exact absurd hfc2 hfcp)
        have hcw := rt_cw_find_hit p r.hash i (old.get ⟨i, hilt⟩) hch hfo hfcp
          (List.getElem?_eq_getElem hilt)
        rw [wget_applyWrites, hmw]
        simp only []
        rw [wget_applyWrites, hcw]
        simp only []
        show some ({ old.get ⟨i, hilt⟩ with index := p + 1 } : Row) = some r
        rw [rt_row_moved hNewIdx hStable hilt hplt (by rw [hgp, hgoi]), hgp]

theorem rtFinal_length_le {old new : List Row}
    (hNewIdx : ∀ j (h : j < new.length), (new.get ⟨j, h⟩).index = j + 1) :
    (rtFinal old new).length ≤ max old.length new.length := by
  simp only [rtFinal]
  apply length_applyWrites_le
  · apply length_applyWrites_le
    · apply length_applyWrites_le
      · apply length_applyWrites_le
        · apply length_applyWrites_le
          · simp [initCells]
          · intro w hw
            have := rt_rw_targets w hw
            omega
        · intro w hw
          have := rt_mnw_targets w hw
          omega
      · intro w hw
        have := rt_cw_targets w hw
        omega
    · intro w hw
      have := rt_mw_targets w hw
      omega
  · intro w hw
    have := rt_aw_targets hNewIdx w hw
    omega

theorem rt_out_eq_new {old new : List Row}
    (hOldIdx : ∀ i (h : i < old.length), (old.get ⟨i, h⟩).index = i + 1)
    (hNewIdx : ∀ j (h : j < new.length), (new.get ⟨j, h⟩).index = j + 1)
    (hStable : ∀ r ∈ old, ∀ s ∈ new, r.hash = s.hash → r.payload = s.payload)
    (hNodup : (old.map Row.hash).Nodup) :
    ((rtFinal old new).filterMap id).map (deref (rtStore old new)) = new := by
  rw [← filterMap_wget_range_of_le (rtFinal_length_le hNewIdx)]
  rw [List.map_filterMap]
  have hcong : ∀ p ∈ List.range (max old.length new.length),
      (wget (rtFinal old new) p).map (deref (rtStore old new)) = new[p]? :=
    fun p _ => rt_master hOldIdx hNewIdx hStable hNodup p
  rw [List.filterMap_congr hcong]
  exact filterMap_getElem_range (le_max_right _ _)

theorem rt_nil_diff {old new : List Row}
    (hOldIdx : ∀ i (h : i < old.length), (old.get ⟨i, h⟩).index = i + 1)
    (hNewIdx : ∀ j (h : j < new.length), (new.get ⟨j, h⟩).index = j + 1)
    (hStable : ∀ r ∈ old, ∀ s ∈ new, r.hash = s.hash → r.payload = s.payload)
    (hNodup : (old.map Row.hash).Nodup)
    (ha : addedList (old.map Row.hash) new = [])
    (hrm : removedList (old.map Row.hash) new = [])
    (hmv : movedList (old.map Row.hash) new = [])
    (hcp : copiedList (old.map Row.hash) new = []) :
    old = new := by
  have hA : ∀ (j : Nat) (r : Row), new[j]? = some r →
      firstIdx (old.map Row.hash) r.hash ≠ none := by
    intro j r hj hcon
    have hmem := mem_addedList.mpr ⟨j, hj, hcon⟩
    rw [ha] at hmem
    simp at hmem
  have hM : ∀ (j : Nat) (h : String) (i : Nat), (new.map Row.hash)[j]? = some h →
      firstIdx (old.map Row.hash) h = some i →
      firstIdx (new.map Row.hash) h = some j → i = j := by
    intro j h i hch hfo hfc
    by_contra hij
    have hmem := mem_movedList.mpr ⟨j, h, i, hch, hfo, hfc, hij, rfl⟩
    rw [hmv] at hmem
    simp at hmem
  have hC : ∀ (j : Nat) (h : String) (i : Nat), (new.map Row.hash)[j]? = some h →
      firstIdx (old.map Row.hash) h = some i →
      firstIdx (new.map Row.hash) h = some j := by
    intro j h i hch hfo
    by_contra hfc
    have hmem := mem_copiedList.mpr ⟨j, h, i, hch, hfo, hfc, rfl⟩
    rw [hcp] at hmem
    simp at hmem
  have hR : ∀ (i : Nat) (h : String), (old.map Row.hash)[i]? = some h →
      firstIdx (new.map Row.hash) h ≠ none := by
    intro i h hh hcon
    have hmem := mem_removedList.mpr ⟨i, h, hh, hcon, rfl⟩
    rw [hrm] at hmem
    simp at hmem
  have hpoint : ∀ (j : Nat) (hj : j < new.length),
      j < old.length ∧ (old.map Row.hash)[j]? = (new.map Row.hash)[j]? := by
    intro j hj
    have hch : (new.map Row.hash)[j]? = some ((new.get ⟨j, hj⟩).hash) :=
      getElem?_map_hash hj
    have hneq : firstIdx (old.map Row.hash) ((new.get ⟨j, hj⟩).hash) ≠ none :=
      hA j (new.get ⟨j, hj⟩) (List.getElem?_eq_getElem hj)
    obtain ⟨i, hfo⟩ : ∃ i, firstIdx (old.map Row.hash)
        ((new.get ⟨j, hj⟩).hash) = some i := by
      cases hf : firstIdx (old.map Row.hash) ((new.get ⟨j, hj⟩).hash) with
      | none => exact absurd hf hneq
      | some i => exact ⟨i, rfl⟩
    have hfc := hC j _ i hch hfo
    have hij := hM j _ i hch hfo hfc
    rw [hij] at hfo
    have hoh : (old.map Row.hash)[j]? = some ((new.get ⟨j, hj⟩).hash) :=
      firstIdx_getElem hfo
    refine ⟨?_, by rw [hoh, hch]⟩
    have := firstIdx_lt_length hfo
    simpa using this
  have hmn : old.length ≤ new.length := by
    by_contra hcon
    push_neg at hcon
    have hilt : new.length < old.length := hcon
    have hoh : (old.map Row.hash)[new.length]? =
        some ((old.get ⟨new.length, hilt⟩).hash) := getElem?_map_hash hilt
    have hneq := hR new.length _ hoh
    obtain ⟨j0, hfc⟩ : ∃ j0, firstIdx (new.map Row.hash)
        ((old.get ⟨new.length, hilt⟩).hash) = some j0 := by
      cases hf : firstIdx (new.map Row.hash)
          ((old.get ⟨new.length, hilt⟩).hash) with
      | none => exact absurd hf hneq
      | some j0 => exact ⟨j0, rfl⟩
    have hj0 : j0 < new.length := by
      have := firstIdx_lt_length hfc
      simpa using this
    have hch : (new.map Row.hash)[j0]? =
        some ((old.get ⟨new.length, hilt⟩).hash) := firstIdx_getElem hfc
    have hch2 : (new.map Row.hash)[j0]? = some ((new.get ⟨j0, hj0⟩).hash) :=
      getElem?_map_hash hj0
    have hhe : (new.get ⟨j0, hj0⟩).hash = (old.get ⟨new.length, hilt⟩).hash := by
      rw [hch2] at hch
      simpa using hch
    have hneqo : firstIdx (old.map Row.hash)
        ((old.get ⟨new.length, hilt⟩).hash) ≠ none := by
      have := hA j0 (new.get ⟨j0, hj0⟩) (List.getElem?_eq_getElem hj0)
      rw [hhe] at this
      exact this
    obtain ⟨i2, hfo2⟩ : ∃ i2, firstIdx (old.map Row.hash)
        ((old.get ⟨new.length, hilt⟩).hash) = some i2 := by
      cases hf : firstIdx (old.map Row.hash)
          ((old.get ⟨new.length, hilt⟩).hash) with
      | none => exact absurd hf hneqo
      | some i2 => exact ⟨i2, rfl⟩
    have hfc2 := hC j0 _ i2 hch hfo2
    have hi2j0 := hM j0 _ i2 hch hfo2 hfc2
    rw [hi2j0] at hfo2
    have hohj0 := firstIdx_getElem hfo2
    have f1 := firstIdx_of_nodup hNodup hoh
    have f2 := firstIdx_of_nodup hNodup hohj0
    rw [f1] at f2
    have : new.length = j0 := by simpa using f2
    omega
  have hnm : new.length ≤ old.length := by
    by_contra hcon
    push_neg at hcon
    have := (hpoint old.length hcon).1
    omega
  have hlen : old.length = new.length := le_antisymm hmn hnm
  apply List.ext_get hlen
  intro n h1 h2
  have hps := hpoint n h2
  have hhash : (old.get ⟨n, h1⟩).hash = (new.get ⟨n, h2⟩).hash := by
    have hoh := getElem?_map_hash h1
    have hch := getElem?_map_hash h2
    rw [hoh, hch] at hps
    have := hps.2
    simpa using this
  exact rt_row_unchanged hOldIdx hNewIdx hStable h1 h2 hhash

theorem rt_roundtrip {old new : List Row}
    (hOldIdx : ∀ i (h : i < old.length), (old.get ⟨i, h⟩).index = i + 1)
    (hNewIdx : ∀ j (h : j < new.length), (new.get ⟨j, h⟩).index = j + 1)
    (hStable : ∀ r ∈ old, ∀ s ∈ new, r.hash = s.hash → r.payload = s.payload)
    (hNodup : (old.map Row.hash).Nodup) :
    differThenApply old new = some new := by
  by_cases hempty : addedList (old.map Row.hash) new = [] ∧
      removedList (old.map Row.hash) new = [] ∧
      movedList (old.map Row.hash) new = [] ∧
      copiedList (old.map Row.hash) new = []
  · have hcoll : collectionDiff (old.map Row.hash) new = none := by
      rw [collectionDiff, if_pos hempty]
    rw [differThenApply, hcoll]
    simp only []
    obtain ⟨ha, hrm, hmv, hcp⟩ := hempty
    rw [rt_nil_diff hOldIdx hNewIdx hStable hNodup ha hrm hmv hcp]
  · have hcoll : collectionDiff (old.map Row.hash) new =
        some ⟨some (addedList (old.map Row.hash) new),
          some (removedList (old.map Row.hash) new),
          some (movedList (old.map Row.hash) new),
          some (copiedList (old.map Row.hash) new)⟩ := by
      rw [collectionDiff, if_neg hempty]
    rw [differThenApply, hcoll]
    simp only []
    rw [applyDiff_on_differ]
    show some (((rtFinal old new).filterMap id).map (deref (rtStore old new))) =
      some new
    rw [rt_out_eq_new hOldIdx hNewIdx hStable hNodup]

theorem rt_getResultSetDiff {cur fresh : List Row}
    (hOldIdx : ∀ i (h : i < cur.length), (cur.get ⟨i, h⟩).index = i + 1)
    (hNewIdx : ∀ j (h : j < fresh.length), (fresh.get ⟨j, h⟩).index = j + 1)
    (hStable : ∀ r ∈ cur, ∀ s ∈ fresh, r.hash = s.hash → r.payload = s.payload)
    (hNodup : (cur.map Row.hash).Nodup)
    {d : Diff} {data : List Row}
    (hres : getResultSetDiff cur fresh = some (d, data)) : data = fresh := by
  rw [getResultSetDiff] at hres
  cases hcoll : collectionDiff (cur.map Row.hash) fresh with
  | none => rw [hcoll] at hres; cases hres
  | some D =>
    have hD : D = ⟨some (addedList (cur.map Row.hash) fresh),
        some (removedList (cur.map Row.hash) fresh),
        some (movedList (cur.map Row.hash) fresh),
        some (copiedList (cur.map Row.hash) fresh)⟩ := by
      rw [collectionDiff] at hcoll
      by_cases hempty : addedList (cur.map Row.hash) fresh = [] ∧
          removedList (cur.map Row.hash) fresh = [] ∧
          movedList (cur.map Row.hash) fresh = [] ∧
          copiedList (cur.map Row.hash) fresh = []
      · rw [if_pos hempty] at hcoll; cases hcoll
      · rw [if_neg hempty] at hcoll
        simpa using hcoll.symm
    subst hD
    rw [hcoll] at hres
    have hres2 : Option.map (fun out => ((⟨some (addedList (cur.map Row.hash) fresh),
        some (removedList (cur.map Row.hash) fresh),
        some (movedList (cur.map Row.hash) fresh),
        some (copiedList (cur.map Row.hash) fresh)⟩ : Diff), out.1))
        (applyDiff cur ⟨some (addedList (cur.map Row.hash) fresh),
        some (removedList (cur.map Row.hash) fresh),
        some (movedList (cur.map Row.hash) fresh),
        some (copiedList (cur.map Row.hash) fresh)⟩) = some (d, data) := hres
    rw [applyDiff_on_differ] at hres2
    have hdata : ((rtFinal cur fresh).filterMap id).map
        (deref (rtStore cur fresh)) = data := by
      have hc := congrArg (fun x => Option.map Prod.snd x) hres2
      simpa using hc
    rw [← hdata]
    exact rt_out_eq_new hOldIdx hNewIdx hStable hNodup

/-- Claim C1 (amended): applying the diff produced from oldData and newData
back onto oldData yields newData — and in particular getResultSetDiff
returns the freshly queried row sequence as its data — provided, in addition
to the stable-hash assumption of the claim, that both sides carry contiguous
1-based `_index` values and the hashes of the old result set are pairwise
distinct. Without the distinctness assumption the claim fails, see the
counterexample. -/
theorem claim_C1_roundtrip (old new : List Row)
    (hOldIdx : ∀ i (h : i < old.length), (old.get ⟨i, h⟩).index = i + 1)
    (hNewIdx : ∀ j (h : j < new.length), (new.get ⟨j, h⟩).index = j + 1)
    (hStable : ∀ r ∈ old, ∀ s ∈ new, r.hash = s.hash → r.payload = s.payload)
    (hNodup : (old.map Row.hash).Nodup) :
    differThenApply old new = some new :=
  rt_roundtrip hOldIdx hNewIdx hStable hNodup

/-- Claim C1 counterexample: with duplicate hashes in the old result set
(rows with stable hashes, well-formed indices), the differ reports no change
for a strictly smaller new result set, so applying its diff does not yield
the new data. -/
theorem claim_C1_counterexample :
    differThenApply [⟨"h", "p", 1⟩, ⟨"h", "p", 2⟩] [⟨"h", "p", 1⟩] =
      some [⟨"h", "p", 1⟩, ⟨"h", "p", 2⟩] ∧
    ([⟨"h", "p", 1⟩, ⟨"h", "p", 2⟩] : List Row) ≠ [⟨"h", "p", 1⟩] ∧
    (∀ r ∈ [(⟨"h", "p", 1⟩ : Row), ⟨"h", "p", 2⟩],
      ∀ s ∈ [(⟨"h", "p", 1⟩ : Row)], r.hash = s.hash → r.payload = s.payload) := by
  decide

/-- Claim C1 witness: the amended roundtrip at a concrete input. -/
theorem claim_C1_witness :
    differThenApply [⟨"a", "x", 1⟩] [⟨"b", "y", 1⟩, ⟨"a", "x", 2⟩] =
      some [⟨"b", "y", 1⟩, ⟨"a", "x", 2⟩] :=
  claim_C1_roundtrip _ _ (by decide) (by decide) (by decide) (by decide)

theorem suppliedStep_flag_mono {cleanHash payloadOf : MRow → String}
    {oldHashes : List String} {st : List (Option Row) × Bool} {m : MRow}
    (h : st.2 = true) :
    (suppliedStep cleanHash payloadOf oldHashes st m).2 = true := by
  rw [suppliedStep]
  cases hfi : firstIdx oldHashes (cleanHash m) with
  | none => split_ifs <;> simp_all
  | some ci => split_ifs <;> simp_all

theorem suppliedStep_flag_set {cleanHash payloadOf : MRow → String}
    {oldHashes : List String} {st : List (Option Row) × Bool} {m : MRow}
    (hdel : m.op = "DELETE" ∨ (m.op = "UPDATE" ∧ m.key = "old_data"))
    (hfound : firstIdx oldHashes (cleanHash m) ≠ none) :
    (suppliedStep cleanHash payloadOf oldHashes st m).2 = true := by
  rw [suppliedStep]
  cases hfi : firstIdx oldHashes (cleanHash m) with
  | none => exact absurd hfi hfound
  | some ci =>
    simp only [if_pos hdel]
    split_ifs <;> rfl

theorem suppliedFold_flag (cleanHash payloadOf : MRow → String)
    (oldHashes : List String) :
    ∀ (matched : List MRow) (st : List (Option Row) × Bool),
    ((∃ m ∈ matched, (m.op = "DELETE" ∨ (m.op = "UPDATE" ∧ m.key = "old_data")) ∧
      firstIdx oldHashes (cleanHash m) ≠ none) ∨ st.2 = true) →
    (matched.foldl (suppliedStep cleanHash payloadOf oldHashes) st).2 = true := by
  intro matched
  induction matched with
  | nil =>
    rintro st (⟨m, hm, _⟩ | hflag)
    · simp at hm
    · simpa using hflag
  | cons m t ih =>
    rintro st (⟨m2, hm2, hdel2, hfound2⟩ | hflag)
    · rw [List.foldl_cons]
      rcases List.mem_cons.mp hm2 with rfl | hmem
      · exact ih _ (Or.inr (suppliedStep_flag_set hdel2 hfound2))
      · exact ih _ (Or.inl ⟨m2, hmem, hdel2, hfound2⟩)
    · rw [List.foldl_cons]
      exact ih _ (Or.inr (suppliedStep_flag_mono hflag))

/-- Claim C4: when a matched row causes a deletion whose hash is found in
the current data and the parsed LIMIT equals the current data length, the
incremental path is abandoned in favour of the full re-query (the
fullRequery result models the getResultSetDiff call of line 249). -/
theorem claim_C4_limit_fallback
    (cleanHash payloadOf : MRow → String) (sortStep : List Row → List Row)
    (currentData : List Row) (matched : List MRow) (parsed : Parsed)
    (m : MRow) (hm : m ∈ matched)
    (hdel : m.op = "DELETE" ∨ (m.op = "UPDATE" ∧ m.key = "old_data"))
    (hfound : firstIdx (currentData.map Row.hash) (cleanHash m) ≠ none)
    (hlim : parsed.limit = some currentData.length) :
    getDiffFromSupplied cleanHash payloadOf sortStep currentData matched parsed =
      SuppliedResult.fullRequery := by
  have hne : ¬ matched.length = 0 := by
    intro h0
    rw [List.length_eq_zero] at h0
    subst h0
    simp at hm
  have hflag := suppliedFold_flag cleanHash payloadOf (currentData.map Row.hash)
    matched (currentData.map some, false) (Or.inl ⟨m, hm, hdel, hfound⟩)
  rw [getDiffFromSupplied, if_neg hne, if_pos ⟨hflag, hlim⟩]

/-- Claim C4 witness: a DELETE matching the single current row of a LIMIT-1
query forces the full re-query. -/
theorem claim_C4_witness :
    getDiffFromSupplied (fun m => m.op.take 1) (fun _ => "p") id
      [⟨"D", "p", 1⟩] [⟨"DELETE", "data"⟩] ⟨false, some 1⟩ =
      SuppliedResult.fullRequery :=
  claim_C4_limit_fallback _ _ _ _ _ _ ⟨"DELETE", "data"⟩ (by decide)
    (by decide) (by decide) (by decide)

theorem renumberFrom_length (k : Nat) (l : List Row) :
    (renumberFrom k l).length = l.length := by
  induction l generalizing k with
  | nil => rfl
  | cons r t ih => simp [renumberFrom, ih]

theorem renumberFrom_get (l : List Row) :
    ∀ (k i : Nat) (h : i < (renumberFrom k l).length),
    ((renumberFrom k l).get ⟨i, h⟩).index = k + i := by
  induction l with
  | nil =>
    intro k i h
    simp [renumberFrom] at h
  | cons r t ih =>
    intro k i h
    cases i with
    | zero => simp [renumberFrom]
    | succ i =>
      have := ih (k + 1) i (by simpa [renumberFrom] using h)
      simp only [renumberFrom, List.get_cons_succ]
      rw [this]
      omega

theorem changed_eq_renumbered {x : Option Diff} {l : List Row} {d : Diff}
    {data : List Row}
    (hres : (match x with
      | none => SuppliedResult.noChange
      | some d0 => SuppliedResult.changed d0 (renumberFrom 1 l)) =
      SuppliedResult.changed d data) :
    data = renumberFrom 1 l := by
  cases x with
  | none => cases hres
  | some d0 =>
    cases hres
    rfl

/-- Claim C5 (amended): the data returned by getDiffFromSupplied always
carries contiguous 1-based `_index` values (the renumbering loop runs after
sorting and truncation); the data returned by getResultSetDiff carries them
provided the current data has pairwise distinct hashes and both sides are
well-indexed with stable hashes — without the distinctness assumption the
getResultSetDiff side fails, see the counterexample. -/
theorem claim_C5_contiguous :
    (∀ (cleanHash payloadOf : MRow → String) (sortStep : List Row → List Row)
      (currentData : List Row) (matched : List MRow) (parsed : Parsed)
      (d : Diff) (data : List Row),
      getDiffFromSupplied cleanHash payloadOf sortStep currentData matched parsed =
        SuppliedResult.changed d data →
      ∀ i (h : i < data.length), (data.get ⟨i, h⟩).index = i + 1) ∧
    (∀ (cur fresh : List Row),
      (∀ i (h : i < cur.length), (cur.get ⟨i, h⟩).index = i + 1) →
      (∀ j (h : j < fresh.length), (fresh.get ⟨j, h⟩).index = j + 1) →
      (∀ r ∈ cur, ∀ s ∈ fresh, r.hash = s.hash → r.payload = s.payload) →
      (cur.map Row.hash).Nodup →
      ∀ (d : Diff) (data : List Row),
      getResultSetDiff cur fresh = some (d, data) →
      ∀ i (h : i < data.length), (data.get ⟨i, h⟩).index = i + 1) := by
  constructor
  · intro cleanHash payloadOf sortStep currentData matched parsed d data hres
    by_cases hne : matched.length = 0
    · rw [getDiffFromSupplied, if_pos hne] at hres
      cases hres
    · rw [getDiffFromSupplied] at hres
      simp only [if_neg hne] at hres
      by_cases hcond : (matched.foldl (suppliedStep cleanHash payloadOf
          (currentData.map Row.hash)) (currentData.map some, false)).2 = true ∧
          parsed.limit = some currentData.length
      · rw [if_pos hcond] at hres
        cases hres
      · rw [if_neg hcond] at hres
        have hdata := changed_eq_renumbered hres
        subst hdata
        intro i h
        rw [renumberFrom_get _ 1 i h]
        omega
  · intro cur fresh hOldIdx hNewIdx hStable hNodup d data hres i h
    have hdata := rt_getResultSetDiff hOldIdx hNewIdx hStable hNodup hres
    subst hdata
    exact hNewIdx i h

/-- Claim C5 counterexample: with duplicate hashes in the current data,
getResultSetDiff returns data whose `_index` values are 1 and 3, not the
contiguous range 1..2. -/
theorem claim_C5_counterexample :
    (getResultSetDiff [⟨"a", "x", 1⟩, ⟨"h", "p", 2⟩, ⟨"h", "p", 3⟩]
      [⟨"h", "p", 1⟩]).map (fun pr => pr.2.map Row.index) = some [1, 3] ∧
    ([1, 3] : List Nat) ≠ [1, 2] := by
  decide

/-- Claim C5 witness: both parts of the amended claim at concrete inputs. -/
theorem claim_C5_witness :
    (∀ i (h : i < ([⟨"h", "p", 1⟩, ⟨"INSERT", "p", 2⟩] : List Row).length),
      (([⟨"h", "p", 1⟩, ⟨"INSERT", "p", 2⟩] : List Row).get ⟨i, h⟩).index = i + 1) ∧
    (∀ i (h : i < ([⟨"a", "x", 1⟩] : List Row).length),
      (([⟨"a", "x", 1⟩] : List Row).get ⟨i, h⟩).index = i + 1) :=
  ⟨claim_C5_contiguous.1 (fun m => m.op) (fun _ => "p") id [⟨"h", "p", 1⟩]
    [⟨"x", "data"⟩, ⟨"INSERT", "data"⟩] ⟨false, none⟩
    ⟨some [⟨"INSERT", "p", 2⟩], some [], some [], some []⟩
    [⟨"h", "p", 1⟩, ⟨"INSERT", "p", 2⟩] (by decide),
   claim_C5_contiguous.2 [] [⟨"a", "x", 1⟩] (by decide) (by decide) (by decide)
    (by decide) ⟨some [⟨"a", "x", 1⟩], some [], some [], some []⟩
    [⟨"a", "x", 1⟩] (by decide)⟩

theorem set_eq_self_of_getElem {α : Type} {l : List α} {k : Nat} {v : α}
    (h : l[k]? = some v) : l.set k v = l := by
  induction l generalizing k with
  | nil => simp at h
  | cons c t ih =>
    cases k with
    | zero =>
      simp at h
      rw [h]
      simp
    | succ k =>
      simp at h
      simp [ih h]

theorem map_getD_range (l : List Row) :
    (List.range l.length).map (fun i => l.getD i default) = l := by
  induction l with
  | nil => simp
  | cons c t ih =>
    rw [List.length_cons, List.range_succ_eq_map]
    simp only [List.map_cons, List.map_map]
    have hpt : ∀ p ∈ List.range t.length,
        ((fun i => (c :: t).getD i default) ∘ (· + 1)) p = t.getD p default := by
      intro p _
      simp [List.getD]
    rw [List.map_congr_left hpt, ih]
    simp [List.getD]

theorem initCells_out (data : List Row) :
    (((List.range data.length).map (fun i => some (Sum.inl i))).filterMap
      id).map (deref data) = data := by
  have h1 : ((List.range data.length).map
      (fun i => some (Sum.inl i : Cell))).filterMap id =
      (List.range data.length).map (fun i => (Sum.inl i : Cell)) := by
    rw [List.filterMap_map]
    exact List.filterMap_eq_map _ ▸ rfl
  rw [h1, List.map_map]
  exact map_getD_range data

/-- Claim C10: applyDiff treats each null diff list as empty (the `!== null`
guards), and with all four lists null it returns the input rows unchanged in
order, leaving the input rows unmutated. -/
theorem claim_C10_null_lists :
    ∀ (data : List Row) (d : Diff),
      (applyDiff data ⟨none, d.removed, d.moved, d.copied⟩ =
        applyDiff data ⟨some [], d.removed, d.moved, d.copied⟩) ∧
      (applyDiff data ⟨d.added, none, d.moved, d.copied⟩ =
        applyDiff data ⟨d.added, some [], d.moved, d.copied⟩) ∧
      (applyDiff data ⟨d.added, d.removed, none, d.copied⟩ =
        applyDiff data ⟨d.added, d.removed, some [], d.copied⟩) ∧
      (applyDiff data ⟨d.added, d.removed, d.moved, none⟩ =
        applyDiff data ⟨d.added, d.removed, d.moved, some []⟩) ∧
      applyDiff data ⟨none, none, none, none⟩ = some (data, data) := by
  intro data d
  refine ⟨rfl, rfl, rfl, rfl, ?_⟩
  show some ((((List.range data.length).map
      (fun i => some (Sum.inl i))).filterMap id).map (deref data), data) =
    some (data, data)
  rw [initCells_out]

theorem phMoved_store_props (ms : List Moved) :
    ∀ (st out : List Row × List (Option Cell)),
    phMoved st ms = some out →
    out.1.map Row.hash = st.1.map Row.hash ∧
    out.1.map Row.payload = st.1.map Row.payload ∧
    ∀ i : Nat, (∀ mv ∈ ms, mv.old_index ≠ i + 1) → out.1[i]? = st.1[i]? := by
  induction ms with
  | nil =>
    intro st out h
    have hso : some st = some out := h
    cases hso
    exact ⟨rfl, rfl, fun _ _ => rfl⟩
  | cons mv t ih =>
    intro st out h
    have hstep : phMoved st (mv :: t) =
        (if mv.old_index = 0 then none
         else
           match st.1[mv.old_index - 1]? with
           | none => none
           | some r =>
             let s2 := st.1.set (mv.old_index - 1) { r with index := mv.new_index }
             if mv.new_index = 0 then some (s2, st.2)
             else some (s2, setSlot st.2 (mv.new_index - 1)
               (some (Sum.inl (mv.old_index - 1))))).bind
          (fun sa => phMoved sa t) := by
      rw [phMoved, List.foldlM_cons]
      rfl
    rw [hstep] at h
    by_cases h0 : mv.old_index = 0
    · rw [if_pos h0] at h
      simp at h
    · rw [if_neg h0] at h
      cases hrd : st.1[mv.old_index - 1]? with
      | none =>
        rw [hrd] at h
        simp at h
      | some r =>
        rw [hrd] at h
        have hkey : ∀ (a2 : List (Option Cell)),
            phMoved (st.1.set (mv.old_index - 1)
              { r with index := mv.new_index }, a2) t = some out →
            out.1.map Row.hash = st.1.map Row.hash ∧
            out.1.map Row.payload = st.1.map Row.payload ∧
            ∀ i : Nat, (∀ x ∈ mv :: t, x.old_index ≠ i + 1) →
              out.1[i]? = st.1[i]? := by
          intro a2 hrec
          obtain ⟨hh, hpay, hunt⟩ := ih _ out hrec
          have hmh : (st.1.set (mv.old_index - 1)
              { r with index := mv.new_index }).map Row.hash =
              st.1.map Row.hash := by
            rw [List.map_set]
            apply set_eq_self_of_getElem
            rw [List.getElem?_map, hrd]
            rfl
          have hmp : (st.1.set (mv.old_index - 1)
              { r with index := mv.new_index }).map Row.payload =
              st.1.map Row.payload := by
            rw [List.map_set]
            apply set_eq_self_of_getElem
            rw [List.getElem?_map, hrd]
            rfl
          refine ⟨hh.trans hmh, hpay.trans hmp, ?_⟩
          intro i hni
          have h1 := hunt i (fun x hx => hni x (List.mem_cons_of_mem mv hx))
          rw [h1]
          apply getElem?_set_of_ne
          have := hni mv (by simp)
          omega
        have h2 : ((if mv.new_index = 0 then
            some (st.1.set (mv.old_index - 1)
              { r with index := mv.new_index }, st.2)
          else
            some (st.1.set (mv.old_index - 1) { r with index := mv.new_index },
              setSlot st.2 (mv.new_index - 1)
                (some (Sum.inl (mv.old_index - 1))))).bind
            (fun sa => phMoved sa t)) = some out := h
        by_cases hn : mv.new_index = 0
        · rw [if_pos hn, Option.some_bind] at h2
          exact hkey _ h2
        · rw [if_neg hn, Option.some_bind] at h2
          exact hkey _ h2

/-- Claim C3 (amended): applyDiff returns a new array, and the only mutation
it performs on the rows of the input array is setting the `_index` field of
the rows referenced by a moved entry; hashes and payloads of all input rows
are unchanged and rows not referenced by any moved entry are fully
unchanged. The pure-function claim fails: a moved row's `_index` field is
reassigned in place (line 348), see the counterexample. -/
theorem claim_C3_mutation (data : List Row) (diff : Diff)
    (res : List Row × List Row) (hres : applyDiff data diff = some res) :
    res.2.map Row.hash = data.map Row.hash ∧
    res.2.map Row.payload = data.map Row.payload ∧
    ∀ i : Nat, (∀ mv ∈ diff.moved.getD [], mv.old_index ≠ i + 1) →
      res.2[i]? = data[i]? := by
  rw [applyDiff] at hres
  cases hcp : phCopied data
      (phNullMoved (phNullRemoved ((List.range data.length).map
        (fun i => some (Sum.inl i))) (diff.removed.getD []))
        (diff.moved.getD [])) (diff.copied.getD []) with
  | none => rw [hcp] at hres; cases hres
  | some nr3 =>
    rw [hcp] at hres
    simp only [] at hres
    cases hmv : phMoved (data, nr3) (diff.moved.getD []) with
    | none => rw [hmv] at hres; cases hres
    | some sf =>
      rw [hmv] at hres
      simp only [] at hres
      cases hres
      exact phMoved_store_props (diff.moved.getD []) (data, nr3) sf hmv

/-- Claim C3 counterexample: a diff with one moved entry leaves the input
row array with a mutated `_index` field after the call. -/
theorem claim_C3_counterexample :
    (applyDiff [⟨"h", "p", 1⟩] ⟨none, none, some [⟨1, 2⟩], none⟩).map
      (fun res => res.2) = some [⟨"h", "p", 2⟩] ∧
    ([⟨"h", "p", 2⟩] : List Row) ≠ [⟨"h", "p", 1⟩] := by
  decide

/-- Claim C3 witness: the amended frame condition at a concrete input. -/
theorem claim_C3_witness :
    ([⟨"a", "x", 1⟩] : List Row).map Row.hash =
      ([⟨"a", "x", 1⟩] : List Row).map Row.hash ∧
    ([⟨"a", "x", 1⟩] : List Row).map Row.payload =
      ([⟨"a", "x", 1⟩] : List Row).map Row.payload ∧
    ∀ i : Nat, (∀ mv ∈ ((⟨none, none, none, none⟩ : Diff)).moved.getD [],
      mv.old_index ≠ i + 1) →
      ([⟨"a", "x", 1⟩] : List Row)[i]? = ([⟨"a", "x", 1⟩] : List Row)[i]? :=
  claim_C3_mutation [⟨"a", "x", 1⟩] ⟨none, none, none, none⟩
    ([⟨"a", "x", 1⟩], [⟨"a", "x", 1⟩]) (by decide)

theorem applyWrites_append {α : Type} (init : List (Option α))
    (w1 w2 : List (Nat × Option α)) :
    applyWrites init (w1 ++ w2) = applyWrites (applyWrites init w1) w2 := by
  simp [applyWrites, List.foldl_append]

/-- Decomposition of applyDiff on an arbitrary diff whose copied and moved
entries read valid positions of the input array. -/
theorem applyDiff_decomp (data : List Row) (diff : Diff)
    (hvc : ∀ c ∈ diff.copied.getD [],
      c.orig_index ≠ 0 ∧ c.orig_index - 1 < data.length)
    (hvm : ∀ m ∈ diff.moved.getD [],
      m.old_index ≠ 0 ∧ m.old_index - 1 < data.length) :
    applyDiff data diff = some
      (((applyWrites (initCells data) (srcWrites data diff)).filterMap id).map
        (deref (mvStore data (diff.moved.getD []))),
       mvStore data (diff.moved.getD [])) := by
  rw [applyDiff]
  rw [phNullRemoved_eq, phNullMoved_eq, phCopied_eq data _ _ hvc]
  simp only []
  rw [phMoved_eq _ data _ hvm]
  simp only []
  rw [phAdded_eq]
  rw [srcWrites, applyWrites_append, applyWrites_append, applyWrites_append,
    applyWrites_append]
  rfl

theorem specFoldRemoved_eq (w : List (Option Row)) (rs : List Removed) :
    rs.foldl (fun a r => if r.ridx = 0 then a else setSlot a (r.ridx - 1) none) w =
      applyWrites w (rs.filterMap (removedWrite Row)) := by
  induction rs generalizing w with
  | nil => rfl
  | cons r t ih =>
    rw [List.foldl_cons, List.filterMap_cons]
    by_cases h : r.ridx = 0
    · simp [h, removedWrite, ih]
    · simp [h, removedWrite, ih, applyWrites_cons]

theorem specFoldMovedNull_eq (w : List (Option Row)) (ms : List Moved) :
    ms.foldl (fun a m => if m.old_index = 0 then a
      else setSlot a (m.old_index - 1) none) w =
      applyWrites w (ms.filterMap (movedNullWrite Row)) := by
  induction ms generalizing w with
  | nil => rfl
  | cons m t ih =>
    rw [List.foldl_cons, List.filterMap_cons]
    by_cases h : m.old_index = 0
    · simp [h, movedNullWrite, ih]
    · simp [h, movedNullWrite, ih, applyWrites_cons]

theorem specFoldAdded_eq (w : List (Option Row)) (adds : List Row) :
    adds.foldl (fun a r => if r.index = 0 then a
      else setSlot a (r.index - 1) (some r)) w =
      applyWrites w (adds.filterMap addedWriteSpec) := by
  induction adds generalizing w with
  | nil => rfl
  | cons r t ih =>
    rw [List.foldl_cons, List.filterMap_cons]
    by_cases h : r.index = 0
    · simp [h, addedWriteSpec, ih]
    · simp [h, addedWriteSpec, ih, applyWrites_cons]

theorem specFoldCopied_eq (data : List Row) (w : List (Option Row))
    (cs : List Copied)
    (hv : ∀ c ∈ cs, c.orig_index ≠ 0 ∧ c.orig_index - 1 < data.length) :
    cs.foldlM (fun a c =>
      if c.orig_index = 0 then none
      else
        match data[c.orig_index - 1]? with
        | none => none
        | some r =>
          if c.new_index = 0 then some a
          else some (setSlot a (c.new_index - 1)
            (some { r with index := c.new_index }))) w =
      some (applyWrites w (cs.filterMap (copiedWriteSpec data))) := by
  induction cs generalizing w with
  | nil => rfl
  | cons c t ih =>
    obtain ⟨h0, hlt⟩ := hv c (by simp)
    have hr : data[c.orig_index - 1]? = some (data.get ⟨c.orig_index - 1, hlt⟩) :=
      List.getElem?_eq_getElem hlt
    rw [List.foldlM_cons, List.filterMap_cons]
    rw [if_neg h0, hr]
    simp only []
    rw [copiedWriteSpec, hr]
    by_cases hn : c.new_index = 0
    · simp only [if_pos hn]
      exact ih w (fun x hx => hv x (by simp [hx]))
    · simp only [if_neg hn]
      rw [applyWrites_cons]
      exact ih _ (fun x hx => hv x (by simp [hx]))

theorem specFoldMoved_eq (data : List Row) (w : List (Option Row))
    (ms : List Moved)
    (hv : ∀ m ∈ ms, m.old_index ≠ 0 ∧ m.old_index - 1 < data.length) :
    ms.foldlM (fun a m =>
      if m.old_index = 0 then none
      else
        match data[m.old_index - 1]? with
        | none => none
        | some r =>
          if m.new_index = 0 then some a
          else some (setSlot a (m.new_index - 1)
            (some { r with index := m.new_index }))) w =
      some (applyWrites w (ms.filterMap (movedWriteSpec data))) := by
  induction ms generalizing w with
  | nil => rfl
  | cons m t ih =>
    obtain ⟨h0, hlt⟩ := hv m (by simp)
    have hr : data[m.old_index - 1]? = some (data.get ⟨m.old_index - 1, hlt⟩) :=
      List.getElem?_eq_getElem hlt
    rw [List.foldlM_cons, List.filterMap_cons]
    rw [if_neg h0, hr]
    simp only []
    rw [movedWriteSpec, hr]
    by_cases hn : m.new_index = 0
    · simp only [if_pos hn]
      exact ih w (fun x hx => hv x (by simp [hx]))
    · simp only [if_neg hn]
      rw [applyWrites_cons]
      exact ih _ (fun x hx => hv x (by simp [hx]))

/-- Decomposition of the spec-order applyDiff under the same validity
assumptions. -/
theorem applyDiffSpec_decomp (data : List Row) (diff : Diff)
    (hvc : ∀ c ∈ diff.copied.getD [],
      c.orig_index ≠ 0 ∧ c.orig_index - 1 < data.length)
    (hvm : ∀ m ∈ diff.moved.getD [],
      m.old_index ≠ 0 ∧ m.old_index - 1 < data.length) :
    applyDiffSpec data diff =
      some ((applyWrites (data.map some) (specWrites data diff)).filterMap id) := by
  rw [applyDiffSpec]
  rw [specFoldRemoved_eq, specFoldMovedNull_eq, specFoldCopied_eq data _ _ hvc]
  simp only []
  rw [specFoldMoved_eq data _ _ hvm]
  simp only []
  rw [specFoldAdded_eq]
  rw [specWrites, applyWrites_append, applyWrites_append, applyWrites_append,
    applyWrites_append]

theorem find?_reverse_map {α β : Type} (l : List (Nat × Option α))
    (F : Nat × Option α → Nat × Option β) (hF : ∀ w, (F w).1 = w.1) (p : Nat) :
    (l.map F).reverse.find? (fun w => w.1 == p) =
      (l.reverse.find? (fun w => w.1 == p)).map F := by
  rw [← List.map_reverse, List.find?_map]
  have hpred : ((fun w : Nat × Option β => w.1 == p) ∘ F) =
      (fun w : Nat × Option α => w.1 == p) := by
    funext w
    simp [Function.comp, hF]
  rw [hpred]

theorem removedWrite_map_deref (S : List Row) (rs : List Removed) :
    rs.filterMap (removedWrite Row) =
      (rs.filterMap (removedWrite Cell)).map
        (fun w => (w.1, w.2.map (deref S))) := by
  rw [List.map_filterMap]
  apply List.filterMap_congr
  intro r _
  by_cases h : r.ridx = 0 <;> simp [removedWrite, h]

theorem movedNullWrite_map_deref (S : List Row) (ms : List Moved) :
    ms.filterMap (movedNullWrite Row) =
      (ms.filterMap (movedNullWrite Cell)).map
        (fun w => (w.1, w.2.map (deref S))) := by
  rw [List.map_filterMap]
  apply List.filterMap_congr
  intro m _
  by_cases h : m.old_index = 0 <;> simp [movedNullWrite, h]

theorem copiedWrite_map_deref (data S : List Row) (cs : List Copied) :
    cs.filterMap (copiedWriteSpec data) =
      (cs.filterMap (copiedWrite data)).map
        (fun w => (w.1, w.2.map (deref S))) := by
  rw [List.map_filterMap]
  apply List.filterMap_congr
  intro c _
  cases hr : data[c.orig_index - 1]? with
  | none => simp [copiedWrite, copiedWriteSpec, hr]
  | some r =>
    by_cases hn : c.new_index = 0 <;>
      simp [copiedWrite, copiedWriteSpec, hr, hn, deref]

theorem addedWrite_map_deref (S : List Row) (adds : List Row) :
    adds.filterMap addedWriteSpec =
      (adds.filterMap addedWrite).map (fun w => (w.1, w.2.map (deref S))) := by
  rw [List.map_filterMap]
  apply List.filterMap_congr
  intro r _
  by_cases h : r.index = 0 <;> simp [addedWrite, addedWriteSpec, h, deref]

/-- The spec-order moved write of an entry equals the source moved write
(an alias of the input row object) read through the final row store, when
the moved entries read valid positions and agree on the new index wherever
they share the old index. -/
theorem movedWrite_map_deref (data : List Row) (ms : List Moved)
    (hvm : ∀ m ∈ ms, m.old_index ≠ 0 ∧ m.old_index - 1 < data.length)
    (hagree : ∀ m1 ∈ ms, ∀ m2 ∈ ms, m1.old_index = m2.old_index →
      m1.new_index = m2.new_index) :
    ms.filterMap (movedWriteSpec data) =
      (ms.filterMap movedWrite).map
        (fun w => (w.1, w.2.map (deref (mvStore data ms)))) := by
  rw [List.map_filterMap]
  apply List.filterMap_congr
  intro m hm
  obtain ⟨h0, hlt⟩ := hvm m hm
  have hr : data[m.old_index - 1]? = some (data.get ⟨m.old_index - 1, hlt⟩) := by
    rw [List.getElem?_eq_getElem hlt]
    rfl
  have hS : (mvStore data ms)[m.old_index - 1]? =
      some { data.get ⟨m.old_index - 1, hlt⟩ with index := m.new_index } := by
    apply mvStore_getElem_hit data _ hr ⟨m, hm, rfl⟩
    intro mv hmv hi
    have h0v := (hvm mv hmv).1
    have hoe : mv.old_index = m.old_index := by omega
    exact hagree mv hmv m hm hoe
  by_cases hn : m.new_index = 0
  · simp [movedWriteSpec, movedWrite, hr, hn]
  · simp only [movedWriteSpec, movedWrite, hr, if_neg hn, Option.map_some',
      deref]
    rw [List.getD_eq_getElem?_getD, hS]
    rfl

/-- Under valid and agreeing moved entries, the spec-order write list is the
source write list with every cell dereferenced through the final row
store. -/
theorem specWrites_eq_map (data : List Row) (diff : Diff)
    (hvm : ∀ m ∈ diff.moved.getD [],
      m.old_index ≠ 0 ∧ m.old_index - 1 < data.length)
    (hagree : ∀ m1 ∈ diff.moved.getD [], ∀ m2 ∈ diff.moved.getD [],
      m1.old_index = m2.old_index → m1.new_index = m2.new_index) :
    specWrites data diff = (srcWrites data diff).map
      (fun w => (w.1, w.2.map (deref (mvStore data (diff.moved.getD []))))) := by
  rw [specWrites, srcWrites]
  simp only [List.map_append]
  rw [removedWrite_map_deref (mvStore data (diff.moved.getD [])),
    movedNullWrite_map_deref (mvStore data (diff.moved.getD [])),
    copiedWrite_map_deref data (mvStore data (diff.moved.getD [])),
    addedWrite_map_deref (mvStore data (diff.moved.getD [])),
    movedWrite_map_deref data (diff.moved.getD []) hvm hagree]

theorem length_applyWrites_map {α β : Type} (i1 : List (Option α))
    (i2 : List (Option β)) (ws : List (Nat × Option α))
    (F : Nat × Option α → Nat × Option β) (hl : i2.length = i1.length)
    (hF : ∀ w, (F w).1 = w.1) :
    (applyWrites i2 (ws.map F)).length = (applyWrites i1 ws).length := by
  induction ws generalizing i1 i2 with
  | nil => simpa [applyWrites]
  | cons w t ih =>
    rw [List.map_cons, applyWrites_cons, applyWrites_cons]
    exact ih _ _ (by rw [length_setSlot, length_setSlot, hl, hF])

/-- Per-slot correspondence between the two cascades: the live value of the
spec-order working array at any position is the live value of the source
working array read through the final row store. -/
theorem c2_per_slot (data : List Row) (diff : Diff) (p : Nat)
    (hvm : ∀ m ∈ diff.moved.getD [],
      m.old_index ≠ 0 ∧ m.old_index - 1 < data.length)
    (hagree : ∀ m1 ∈ diff.moved.getD [], ∀ m2 ∈ diff.moved.getD [],
      m1.old_index = m2.old_index → m1.new_index = m2.new_index) :
    wget (applyWrites (data.map some) (specWrites data diff)) p =
      (wget (applyWrites (initCells data) (srcWrites data diff)) p).map
        (deref (mvStore data (diff.moved.getD []))) := by
  rw [specWrites_eq_map data diff hvm hagree, wget_applyWrites, wget_applyWrites,
    find?_reverse_map (srcWrites data diff)
      (fun w => (w.1, w.2.map (deref (mvStore data (diff.moved.getD [])))))
      (fun w => rfl) p]
  cases hf : (srcWrites data diff).reverse.find? (fun w => w.1 == p) with
  | some w => simp
  | none =>
    simp only [Option.map_none']
    have hnw : ∀ w ∈ srcWrites data diff, w.1 ≠ p := by
      intro w hw hwp
      have hcon := List.find?_eq_none.mp hf w (List.mem_reverse.mpr hw)
      simp [hwp] at hcon
    rw [wget_initCells]
    by_cases hp : p < data.length
    · rw [if_pos hp]
      have hmap : wget (data.map some) p = some (data.get ⟨p, hp⟩) := by
        simp [wget, List.getElem?_map, List.getElem?_eq_getElem hp]
      have huntouched : (mvStore data (diff.moved.getD []))[p]? = data[p]? := by
        apply mvStore_getElem_untouched
        intro mv hmv hip
        obtain ⟨h0, hlt⟩ := hvm mv hmv
        have hmem1 : ((mv.old_index - 1, none) : Nat × Option Cell) ∈
            (diff.moved.getD []).filterMap (movedNullWrite Cell) :=
          List.mem_filterMap.mpr ⟨mv, hmv, by simp [movedNullWrite, h0]⟩
        have hmem : ((mv.old_index - 1, none) : Nat × Option Cell) ∈
            srcWrites data diff := by
          rw [srcWrites]
          simp [hmem1]
        exact hnw _ hmem hip
      rw [hmap]
      simp only [Option.map_some', deref]
      rw [List.getD_eq_getElem?_getD, huntouched, List.getElem?_eq_getElem hp]
      rfl
    · rw [if_neg hp]
      have h1 : wget (data.map some) p = none :=
        wget_eq_none_of_le (by simp; omega)
      rw [h1]
      rfl

/-- Claim C2: applyDiff follows the recipe of specification section 4.2 (null
out removed and moved source slots, write copies, moves and additions at
their new positions, compact). The source code realizes the moved phase by
mutating the input row objects in place and storing references to them, so
its output agrees with the value-semantics recipe of the spec only when the
moved entries read valid positions and no input row is given two different
new indices; the counterexample shows the outputs diverge when two moved
entries share an old index, because the second in-place `_index` mutation
retroactively changes the row already written by the first. -/
theorem claim_C2_refinement (data : List Row) (diff : Diff)
    (hvc : ∀ c ∈ diff.copied.getD [],
      c.orig_index ≠ 0 ∧ c.orig_index - 1 < data.length)
    (hvm : ∀ m ∈ diff.moved.getD [],
      m.old_index ≠ 0 ∧ m.old_index - 1 < data.length)
    (hagree : ∀ m1 ∈ diff.moved.getD [], ∀ m2 ∈ diff.moved.getD [],
      m1.old_index = m2.old_index → m1.new_index = m2.new_index) :
    (applyDiff data diff).map Prod.fst = applyDiffSpec data diff := by
  rw [applyDiff_decomp data diff hvc hvm, applyDiffSpec_decomp data diff hvc hvm]
  simp only [Option.map_some']
  congr 1
  rw [filterMap_id_eq_filterMap_range
      (applyWrites (initCells data) (srcWrites data diff)),
    filterMap_id_eq_filterMap_range
      (applyWrites (data.map some) (specWrites data diff)),
    List.map_filterMap]
  have hlen : (applyWrites (data.map some) (specWrites data diff)).length =
      (applyWrites (initCells data) (srcWrites data diff)).length := by
    rw [specWrites_eq_map data diff hvm hagree]
    apply length_applyWrites_map
    · simp [initCells]
    · intro w
      rfl
  rw [hlen]
  apply List.filterMap_congr
  intro p _
  exact (c2_per_slot data diff p hvm hagree).symm

/-- Claim C2 counterexample: on one input row and a moved list that moves the
same old position to two different new positions, the source applyDiff
returns the row with `_index` 2 at both output positions (both slots alias
the same mutated row object), while the spec recipe of section 4.2 returns
the row with `_index` 1 followed by the row with `_index` 2. -/
theorem claim_C2_counterexample :
    (applyDiff [⟨"h", "p", 1⟩] ⟨none, none, some [⟨1, 1⟩, ⟨1, 2⟩], none⟩).map
        Prod.fst = some [⟨"h", "p", 2⟩, ⟨"h", "p", 2⟩] ∧
    applyDiffSpec [⟨"h", "p", 1⟩] ⟨none, none, some [⟨1, 1⟩, ⟨1, 2⟩], none⟩ =
      some [⟨"h", "p", 1⟩, ⟨"h", "p", 2⟩] ∧
    (applyDiff [⟨"h", "p", 1⟩] ⟨none, none, some [⟨1, 1⟩, ⟨1, 2⟩], none⟩).map
        Prod.fst ≠
      applyDiffSpec [⟨"h", "p", 1⟩] ⟨none, none, some [⟨1, 1⟩, ⟨1, 2⟩], none⟩ := by
  refine ⟨by decide, by decide, by decide⟩

theorem head?_take_one {α : Type} (l : List α) : (l.take 1).head? = l.head? := by
  cases l <;> rfl

theorem selField_firstOnly (p : NPayload) (k : String) :
    selField (firstOnly p) k = (selField p k).take 1 := by
  rw [selField, selField, firstOnly]
  split_ifs <;> rfl

theorem firstOnly_op (p : NPayload) : (firstOnly p).op = p.op := rfl

theorem pushItem_firstOnly (p : NPayload) (k : String) (i : Nat) :
    pushItem (firstOnly p) k i = pushItem p k i := by
  simp only [pushItem, selField_firstOnly, head?_take_one, firstOnly_op]

theorem flattenGo_firstOnly (ns : List NPayload) : ∀ i : Nat,
    flattenGo i (ns.map firstOnly) = flattenGo i ns := by
  induction ns with
  | nil =>
    intro i
    rfl
  | cons p t ih =>
    intro i
    simp only [List.map_cons, flattenGo, pushItem_firstOnly, ih, firstOnly_op]

/-- Claim C9: flattenNotifications reads only the first element of each
payload's selected row array (`payload[key][0]`), so truncating every row
array to its first element leaves the output, and hence the diff computed
from it, unchanged. -/
theorem claim_C9_first_element (ns : List NPayload) :
    flattenNotifications ns = flattenNotifications (ns.map firstOnly) := by
  rw [flattenNotifications, flattenNotifications, flattenGo_firstOnly]

/-- Claim C2 witness: the refinement at a concrete input whose moved entries
are valid and agree. -/
theorem claim_C2_witness :
    (applyDiff [⟨"a", "x", 1⟩, ⟨"b", "y", 2⟩]
        ⟨none, none, some [⟨2, 1⟩], none⟩).map Prod.fst =
      applyDiffSpec [⟨"a", "x", 1⟩, ⟨"b", "y", 2⟩]
        ⟨none, none, some [⟨2, 1⟩], none⟩ :=
  claim_C2_refinement [⟨"a", "x", 1⟩, ⟨"b", "y", 2⟩]
    ⟨none, none, some [⟨2, 1⟩], none⟩ (by decide) (by decide) (by decide)

theorem pairIn_addPair_mono {s : List (String × List String)} {d tbl : String}
    (d2 tbl2 : String) (h : pairIn s d tbl) :
    pairIn (addPair s d2 tbl2) d tbl := by
  obtain ⟨e, he, hd, ht⟩ := h
  rw [addPair]
  cases hf : s.find? (fun x => decide (x.1 = d2)) with
  | none => exact ⟨e, List.mem_append_left _ he, hd, ht⟩
  | some e0 =>
    by_cases hed : e.1 = d2
    · refine ⟨(e.1, if tbl2 ∈ e.2 then e.2 else e.2 ++ [tbl2]), ?_, hd, ?_⟩
      · exact List.mem_map.mpr ⟨e, he, by rw [if_pos hed]⟩
      · by_cases h2 : tbl2 ∈ e.2
        · rw [if_pos h2]
          exact ht
        · rw [if_neg h2]
          exact List.mem_append_left _ ht
    · exact ⟨e, List.mem_map.mpr ⟨e, he, by rw [if_neg hed]⟩, hd, ht⟩

theorem pairIn_addPair_self (s : List (String × List String)) (d tbl : String) :
    pairIn (addPair s d tbl) d tbl := by
  rw [addPair]
  cases hf : s.find? (fun x => decide (x.1 = d)) with
  | none =>
    exact ⟨(d, [tbl]), List.mem_append_right _ (by simp), rfl, by simp⟩
  | some e0 =>
    have he0 : e0 ∈ s := List.mem_of_find?_eq_some hf
    have hd0 : e0.1 = d := by
      have := List.find?_some hf
      simpa using this
    refine ⟨(e0.1, if tbl ∈ e0.2 then e0.2 else e0.2 ++ [tbl]), ?_, hd0, ?_⟩
    · exact List.mem_map.mpr ⟨e0, he0, by rw [if_pos hd0]⟩
    · by_cases h2 : tbl ∈ e0.2
      · rw [if_pos h2]
        exact h2
      · rw [if_neg h2]
        exact List.mem_append_right _ (by simp)

theorem schemaLoop_mono (dflt : Option String) (ts : List TriggerA) :
    ∀ (s : List (String × List String)) {d tbl : String},
    pairIn s d tbl → pairIn (schemaLoop dflt ts s).1 d tbl := by
  induction ts with
  | nil =>
    intro s d tbl h
    exact h
  | cons t0 rest ih =>
    intro s d tbl h
    rw [schemaLoop]
    cases hr : resolveDb dflt t0 with
    | none => exact h
    | some d0 => exact ih _ (pairIn_addPair_mono d0 t0.table h)

theorem schemaLoop_covers (dflt : Option String) (ts : List TriggerA) :
    ∀ (s : List (String × List String)),
    (schemaLoop dflt ts s).2 = false →
    ∀ t ∈ ts, ∀ d, resolveDb dflt t = some d →
      pairIn (schemaLoop dflt ts s).1 d t.table := by
  induction ts with
  | nil =>
    intro s _ t ht
    simp at ht
  | cons t0 rest ih =>
    intro s hfl t ht d hd
    rw [schemaLoop] at hfl ⊢
    revert hfl
    cases hr : resolveDb dflt t0 with
    | none =>
      intro hfl
      simp at hfl
    | some d0 =>
      intro hfl
      simp only [] at hfl ⊢
      rcases List.mem_cons.mp ht with heq | hm
      · subst heq
        rw [hr] at hd
        injection hd with hd0
        rw [← hd0]
        exact schemaLoop_mono dflt rest _ (pairIn_addPair_self s d0 t.table)
      · exact ih _ hfl t hm d hd

/-- schemaCovers transfers along equality of the selects and schema parts. -/
theorem schemaCovers_of_sub (dflt : Option String) (st1 st2 : EngineSt)
    (hsel : ∀ x ∈ st2.selects, x ∈ st1.selects) (hsch : st2.schema = st1.schema)
    (h : schemaCovers dflt st1) : schemaCovers dflt st2 := by
  intro x hx t ht d hd
  rw [hsch]
  exact h x (hsel x hx) t ht d hd

theorem schemaCovers_extend (dflt : Option String) (st : EngineSt)
    (ts : List TriggerA) (h : schemaCovers dflt st) :
    schemaCovers dflt { st with schema := (schemaLoop dflt ts st.schema).1 } := by
  intro sel hs t ht d hd
  exact schemaLoop_mono dflt ts _ (h sel hs t ht d hd)

theorem selectCore_covers (dflt : Option String) (st : EngineSt) (q : String)
    (v : JArg) (tag : String) (ts : List TriggerA) (miNum : Bool)
    (hcov : schemaCovers dflt st)
    (hts : ∀ t ∈ ts, ∀ d, resolveDb dflt t = some d →
      pairIn st.schema d t.table) :
    schemaCovers dflt (selectCore st q v tag ts miNum).2 := by
  simp only [selectCore]
  cases hf : st.registry.find?
      (fun c => decide (c.ckey = (q, normValues v, tag))) with
  | some c0 =>
    intro sel hsel t ht d hd
    rcases List.mem_append.mp hsel with hs | hs
    · exact hcov sel hs t ht d hd
    · have hse : sel = ⟨st.counter, (q, normValues v, tag), ts⟩ := by
        simpa using hs
      subst hse
      exact hts t ht d hd
  | none =>
    cases miNum with
    | true =>
      intro sel hsel t ht d hd
      rcases List.mem_append.mp hsel with hs | hs
      · exact hcov sel hs t ht d hd
      · have hse : sel = ⟨st.counter, (q, normValues v, tag), ts⟩ := by
          simpa using hs
        subst hse
        exact hts t ht d hd
    | false => exact hcov

/-- The two minInterval-accepting branches of select share this body. -/
theorem selectBranch_covers (dflt : Option String) (st : EngineSt) (q : String)
    (v : JArg) (tag : String) (ts : List TriggerA) (miNum : Bool)
    (h : schemaCovers dflt st) :
    schemaCovers dflt
      (if (schemaLoop dflt ts st.schema).2 then
        (Except.error "no database selected on trigger",
         { st with schema := (schemaLoop dflt ts st.schema).1 })
      else
        selectCore { st with schema := (schemaLoop dflt ts st.schema).1 }
          q v tag ts miNum).2 := by
  by_cases hfl : (schemaLoop dflt ts st.schema).2
  · rw [if_pos hfl]
    exact schemaCovers_extend dflt st ts h
  · rw [if_neg hfl]
    apply selectCore_covers
    · exact schemaCovers_extend dflt st ts h
    · intro t ht d hd
      rw [Bool.not_eq_true] at hfl
      exact schemaLoop_covers dflt ts st.schema hfl t ht d hd

theorem selectModel_covers (dflt : Option String) (st : EngineSt)
    (q v k t mi : JArg) (h : schemaCovers dflt st) :
    schemaCovers dflt (selectModel dflt st q v k t mi).2 := by
  cases q with
  | jstr qs =>
    simp only [selectModel]
    by_cases hv : typeofObjectOrUndef v
    · rw [if_pos hv]
      cases k with
      | jfun tag =>
        cases t with
        | jtrigs ts =>
          simp only []
          by_cases hlen : ts.length = 0
          · rw [if_pos hlen]
            exact h
          · rw [if_neg hlen]
            cases mi with
            | jnum n => exact selectBranch_covers dflt st qs v tag ts true h
            | jundef => exact selectBranch_covers dflt st qs v tag ts false h
            | jstr s => exact h
            | jobj s => exact h
            | jnull => exact h
            | jfun s => exact h
            | jtrigs l => exact h
        | jstr s => exact h
        | jnum n => exact h
        | jobj s => exact h
        | jnull => exact h
        | jundef => exact h
        | jfun s => exact h
      | jstr s => exact h
      | jnum n => exact h
      | jobj s => exact h
      | jnull => exact h
      | jundef => exact h
      | jtrigs l => exact h
    · rw [if_neg hv]
      exact h
  | jnum n => exact h
  | jobj s => exact h
  | jnull => exact h
  | jundef => exact h
  | jfun s => exact h
  | jtrigs l => exact h

theorem removeSelect_covers (dflt : Option String) (st : EngineSt) (sid : Nat)
    (h : schemaCovers dflt st) :
    schemaCovers dflt (removeSelectModel st sid).2 := by
  simp only [removeSelectModel]
  cases hf : st.selects.find? (fun s => decide (s.sid = sid)) with
  | none => exact h
  | some sel0 =>
    simp only []
    have hsub : ∀ x ∈ st.selects.eraseP (fun s => decide (s.sid = sid)),
        x ∈ st.selects :=
      fun x hx => (List.eraseP_sublist _).mem hx
    cases hr : st.registry.find? (fun c => decide (c.ckey = sel0.qkey)) with
    | none => exact schemaCovers_of_sub dflt st _ hsub rfl h
    | some c0 =>
      simp only []
      by_cases hm : sid ∈ c0.csel
      · rw [if_pos hm]
        by_cases hl : (c0.csel.eraseP (fun y => decide (y = sid))).length = 0
        · rw [if_pos hl]
          exact schemaCovers_of_sub dflt st _ hsub rfl h
        · rw [if_neg hl]
          exact schemaCovers_of_sub dflt st _ hsub rfl h
      · rw [if_neg hm]
        exact schemaCovers_of_sub dflt st _ hsub rfl h

theorem schemaCovers_foldl (dflt : Option String) (ops : List EngineOp) :
    ∀ st : EngineSt, schemaCovers dflt st →
    schemaCovers dflt (ops.foldl (engineStep dflt) st) := by
  induction ops with
  | nil =>
    intro st h
    exact h
  | cons op rest ih =>
    intro st h
    rw [List.foldl_cons]
    apply ih
    cases op with
    | opSelect q v k t mi => exact selectModel_covers dflt st q v k t mi h
    | opRemove sid => exact removeSelect_covers dflt st sid h

/-- Claim C6 (amended): at every engine state reachable by select and
_removeSelect calls, the published interest-set covers every
(database, table) pair of every live subscription trigger. The converse
inclusion of the claim is false: _removeSelect never deletes interest-set
entries, so after the last subscription referencing a pair detaches, the
pair remains published, see the counterexample. -/
theorem claim_C6_schema (dflt : Option String) (ops : List EngineOp) :
    schemaCovers dflt (runOps dflt ops) := by
  rw [runOps]
  apply schemaCovers_foldl
  intro x hx
  simp [initEngine] at hx

/-- Claim C6 counterexample: registering a subscription on table `tbl` and
then removing it leaves no live subscription but keeps `(d, tbl)` in the
interest-set, so the set is not the union over live subscriptions. -/
theorem claim_C6_counterexample :
    (runOps (some "d") [EngineOp.opSelect (JArg.jstr "q") JArg.jundef
        (JArg.jfun "k") (JArg.jtrigs [⟨none, "tbl"⟩]) (JArg.jnum 5),
      EngineOp.opRemove 0]).selects = [] ∧
    (runOps (some "d") [EngineOp.opSelect (JArg.jstr "q") JArg.jundef
        (JArg.jfun "k") (JArg.jtrigs [⟨none, "tbl"⟩]) (JArg.jnum 5),
      EngineOp.opRemove 0]).schema = [("d", ["tbl"])] :=
  ⟨rfl, rfl⟩

/-- Claim C7: a select call with a fresh cache identity and minInterval
undefined does not create and register a new cache: line 178 reads
`this.slaveSettings.minInterval`, but no code ever assigns `slaveSettings`,
so the call throws a TypeError after updating the interest-set, registers
nothing, and returns no subscription handle. -/
theorem claim_C7_cache_bug :
    (selectModel none initEngine (JArg.jstr "q") JArg.jundef (JArg.jfun "k")
        (JArg.jtrigs [⟨some "d", "t"⟩]) JArg.jundef).1 =
      Except.error
        "TypeError: cannot read minInterval of undefined slaveSettings" ∧
    (selectModel none initEngine (JArg.jstr "q") JArg.jundef (JArg.jfun "k")
        (JArg.jtrigs [⟨some "d", "t"⟩]) JArg.jundef).2.registry = [] ∧
    (selectModel none initEngine (JArg.jstr "q") JArg.jundef (JArg.jfun "k")
        (JArg.jtrigs [⟨some "d", "t"⟩]) JArg.jundef).2.selects = [] ∧
    (selectModel none initEngine (JArg.jstr "q") JArg.jundef (JArg.jfun "k")
        (JArg.jtrigs [⟨some "d", "t"⟩]) JArg.jundef).2.schema = [("d", ["t"])] :=
  ⟨rfl, rfl, rfl, rfl⟩

/-- Claim C8 (amended): the five type validations of select are synchronous
and state-preserving: whenever they reject, select returns exactly that
error with the engine state untouched. The claim's remaining requirements do
not hold: the empty query string and negative minInterval values are
accepted, and the no-database error of the schema loop is thrown only after
the interest-set updates of the earlier triggers, see the counterexample. -/
theorem claim_C8_validation (dflt : Option String) (st : EngineSt)
    (query values keySelector triggers minInterval : JArg) (msg : String)
    (h : argTypeError query values keySelector triggers minInterval = some msg) :
    selectModel dflt st query values keySelector triggers minInterval =
      (Except.error msg, st) := by
  cases query with
  | jstr qs =>
    simp only [selectModel]
    by_cases hv : typeofObjectOrUndef values
    · rw [if_pos hv]
      simp only [argTypeError, if_pos hv] at h
      cases keySelector with
      | jfun tag =>
        simp only [] at h ⊢
        cases triggers with
        | jtrigs ts =>
          simp only [] at h ⊢
          by_cases hlen : ts.length = 0
          · rw [if_pos hlen] at h
            rw [if_pos hlen]
            injection h with h
            subst h
            rfl
          · rw [if_neg hlen] at h
            rw [if_neg hlen]
            cases minInterval with
            | jnum n => simp at h
            | jundef => simp at h
            | jstr s =>
              simp only [] at h
              injection h with h
              subst h
              rfl
            | jobj s =>
              simp only [] at h
              injection h with h
              subst h
              rfl
            | jnull =>
              simp only [] at h
              injection h with h
              subst h
              rfl
            | jfun s =>
              simp only [] at h
              injection h with h
              subst h
              rfl
            | jtrigs l =>
              simp only [] at h
              injection h with h
              subst h
              rfl
        | jstr s =>
          simp only [] at h
          injection h with h
          subst h
          rfl
        | jnum n =>
          simp only [] at h
          injection h with h
          subst h
          rfl
        | jobj s =>
          simp only [] at h
          injection h with h
          subst h
          rfl
        | jnull =>
          simp only [] at h
          injection h with h
          subst h
          rfl
        | jundef =>
          simp only [] at h
          injection h with h
          subst h
          rfl
        | jfun s =>
          simp only [] at h
          injection h with h
          subst h
          rfl
      | jstr s =>
        simp only [] at h
        injection h with h
        subst h
        rfl
      | jnum n =>
        simp only [] at h
        injection h with h
        subst h
        rfl
      | jobj s =>
        simp only [] at h
        injection h with h
        subst h
        rfl
      | jnull =>
        simp only [] at h
        injection h with h
        subst h
        rfl
      | jundef =>
        simp only [] at h
        injection h with h
        subst h
        rfl
      | jtrigs l =>
        simp only [] at h
        injection h with h
        subst h
        rfl
    · rw [if_neg hv]
      simp only [argTypeError, if_neg hv] at h
      injection h with h
      subst h
      rfl
  | jnum num =>
    simp only [argTypeError] at h
    injection h with h
    subst h
    rfl
  | jobj s =>
    simp only [argTypeError] at h
    injection h with h
    subst h
    rfl
  | jnull =>
    simp only [argTypeError] at h
    injection h with h
    subst h
    rfl
  | jundef =>
    simp only [argTypeError] at h
    injection h with h
    subst h
    rfl
  | jfun s =>
    simp only [argTypeError] at h
    injection h with h
    subst h
    rfl
  | jtrigs l =>
    simp only [argTypeError] at h
    injection h with h
    subst h
    rfl

/-- Claim C8 counterexample: the empty query string and a negative
minInterval are accepted (the call succeeds and registers a subscription),
and the no-database error of the schema loop is raised only after the first
trigger's pair has been added to the interest-set, so the engine state has
already changed when the error reaches the caller. -/
theorem claim_C8_counterexample :
    (selectModel (some "d") initEngine (JArg.jstr "") JArg.jundef
        (JArg.jfun "k") (JArg.jtrigs [⟨none, "t"⟩]) (JArg.jnum (-1))).1 =
      Except.ok 0 ∧
    (selectModel none initEngine (JArg.jstr "q") JArg.jundef (JArg.jfun "k")
        (JArg.jtrigs [⟨some "d1", "t1"⟩, ⟨none, "t2"⟩]) (JArg.jnum 5)).1 =
      Except.error "no database selected on trigger" ∧
    (selectModel none initEngine (JArg.jstr "q") JArg.jundef (JArg.jfun "k")
        (JArg.jtrigs [⟨some "d1", "t1"⟩, ⟨none, "t2"⟩]) (JArg.jnum 5)).2.schema =
      [("d1", ["t1"])] ∧
    (selectModel none initEngine (JArg.jstr "q") JArg.jundef (JArg.jfun "k")
        (JArg.jtrigs [⟨some "d1", "t1"⟩, ⟨none, "t2"⟩]) (JArg.jnum 5)).2 ≠
      initEngine :=
  ⟨rfl, rfl, rfl, by decide⟩

/-- Claim C8 witness: the amended validation theorem at a concrete input. -/
theorem claim_C8_witness :
    argTypeError (JArg.jnum 1) JArg.jundef (JArg.jfun "k")
        (JArg.jtrigs [⟨none, "t"⟩]) JArg.jundef =
      some "query must be a string" ∧
    selectModel none initEngine (JArg.jnum 1) JArg.jundef (JArg.jfun "k")
        (JArg.jtrigs [⟨none, "t"⟩]) JArg.jundef =
      (Except.error "query must be a string", initEngine) :=
  ⟨rfl, claim_C8_validation none initEngine (JArg.jnum 1) JArg.jundef
    (JArg.jfun "k") (JArg.jtrigs [⟨none, "t"⟩]) JArg.jundef
    "query must be a string" rfl⟩

end MysqlLiveSelect
